import Mathlib

/-!
# go-amino: primitive writers (`buffer_encoder.go`) and the wire scanner (`cmd/aminoscan`)

A shallow embedding of the byte-level writers of `Buffer` and of the structural
scanner of `aminoscan`, together with theorems about the wire format they share.

Conventions of the embedding

* A Go `[]byte` (and a Go `string`, which is an immutable byte sequence) is a
  `List Nat`; every byte the writers produce is reduced with `uint8`.  That is the
  reading of a slice by its elements, which is the program wherever an argument shares no
  memory with the buffer it is written to.  The section on `Mem.Buffer` models the
  writers with the backing array of the buffer, for arguments that may share it.
* A Go `uint64` is a `Nat` below `2 ^ 64`; operations that can overflow carry an
  explicit `% 2 ^ 64`.  A Go `int64`/`int` is an `Int`.
* The colored strings the scanner builds and prints are not part of the model;
  the slice expressions that feed them are kept for their bounds checks only.
-/

namespace Amino

/-! ## Machine integers -/

/-- Go conversion `uint8(x)` of an unsigned value. -/
def uint8 (x : Nat) : Nat := x % 256

/-- Go conversion `uint32(x)` of an unsigned value. -/
def uint32 (x : Nat) : Nat := x % 2 ^ 32

/-- Go conversion `uint64(i)` of a signed value (two's complement). -/
def uint64 (i : Int) : Nat := (i % 2 ^ 64).toNat

/-- Go conversion `int64(x)` of a `uint64` (two's complement reinterpretation). -/
def int64 (x : Nat) : Int :=
  if x % 2 ^ 64 < 2 ^ 63 then ((x % 2 ^ 64 : Nat) : Int) else ((x % 2 ^ 64 : Nat) : Int) - 2 ^ 64

/-- Go conversion `int32(x)` of a `uint64` (keeps the low 32 bits, two's complement). -/
def int32 (x : Nat) : Int :=
  if x % 2 ^ 32 < 2 ^ 31 then ((x % 2 ^ 32 : Nat) : Int) else ((x % 2 ^ 32 : Nat) : Int) - 2 ^ 32

/-- Go conversion `uint32(i)` of a signed value (two's complement). -/
def uint32OfInt (i : Int) : Nat := (i % 2 ^ 32).toNat

/-! ## `Buffer` (buffer_encoder.go) -/

/-- The Go struct `Buffer` by its contents: the bytes `p.buf` shows, and the read point.
The backing array and the capacity of `p.buf` are kept by `Mem.Buffer`. -/
structure Buffer where
  buf : List Nat
  index : Int
  deriving DecidableEq, Repr

/-- Go `NewBuffer(e)`: `&Buffer{buf: e}`, the index is the zero value. -/
def NewBuffer (e : List Nat) : Buffer := { buf := e, index := 0 }

/-- Go `(*Buffer).Reset` on the contents: `p.buf[0:0]` shows no byte.  The array and the
capacity it keeps are in `Mem.Buffer.Reset`. -/
def Buffer.Reset (p : Buffer) : Buffer := { buf := p.buf.take 0, index := 0 }

/-- Go `(*Buffer).SetBuf` on the contents (`Mem.Buffer.SetBuf` keeps the slice header). -/
def Buffer.SetBuf (_p : Buffer) (s : List Nat) : Buffer := { buf := s, index := 0 }

/-- Go `(*Buffer).WriteBytes` for an argument given by its elements. -/
def Buffer.WriteBytes (p : Buffer) (b : List Nat) : Buffer := { p with buf := p.buf ++ b }

/-- Go `(*Buffer).Bytes`. -/
def Buffer.Bytes (p : Buffer) : List Nat := p.buf

/-- Go `(*Buffer).EncodeVarint`: the loop `for x >= 1<<7 { append(x&0x7f|0x80); x >>= 7 }`
followed by the final `append(uint8(x))`. -/
def Buffer.EncodeVarint (p : Buffer) (x : Nat) : Buffer :=
  if 1 <<< 7 ≤ x then
    Buffer.EncodeVarint { p with buf := p.buf ++ [uint8 (x &&& 0x7f ||| 0x80)] } (x >>> 7)
  else
    { p with buf := p.buf ++ [uint8 x] }
termination_by x
decreasing_by
  simp only [Nat.shiftRight_eq_div_pow]
  omega

/-- Go `(*Buffer).EncodeFixed64`. -/
def Buffer.EncodeFixed64 (p : Buffer) (x : Nat) : Buffer :=
  { p with buf := p.buf ++
      [uint8 x, uint8 (x >>> 8), uint8 (x >>> 16), uint8 (x >>> 24),
       uint8 (x >>> 32), uint8 (x >>> 40), uint8 (x >>> 48), uint8 (x >>> 56)] }

/-- Go `(*Buffer).EncodeFixed32`. -/
def Buffer.EncodeFixed32 (p : Buffer) (x : Nat) : Buffer :=
  { p with buf := p.buf ++ [uint8 x, uint8 (x >>> 8), uint8 (x >>> 16), uint8 (x >>> 24)] }

/-- Go `(*Buffer).EncodeBool`. -/
def Buffer.EncodeBool (p : Buffer) (b : Bool) : Buffer :=
  if b then p.EncodeVarint 1 else p.EncodeVarint 0

/-- Go `(*Buffer).EncodeZigzag64`:
`p.EncodeVarint(uint64((x << 1) ^ uint64((int64(x) >> 63))))`. -/
def Buffer.EncodeZigzag64 (p : Buffer) (x : Nat) : Buffer :=
  p.EncodeVarint (((x <<< 1) % 2 ^ 64) ^^^ uint64 (int64 x >>> (63 : Nat)))

/-- Go `(*Buffer).EncodeZigzag32`:
`p.EncodeVarint(uint64((uint32(x) << 1) ^ uint32((int32(x) >> 31))))`. -/
def Buffer.EncodeZigzag32 (p : Buffer) (x : Nat) : Buffer :=
  p.EncodeVarint (((uint32 x <<< 1) % 2 ^ 32) ^^^ uint32OfInt (int32 x >>> (31 : Nat)))

/-- Go `(*Buffer).EncodeRawBytes` for an argument given by its elements, a slice that
shares no memory with the buffer (`Mem.Buffer.EncodeRawBytes` is the call on shared
memory); `uint64(len(b))` is `len(b) % 2 ^ 64`. -/
def Buffer.EncodeRawBytes (p : Buffer) (b : List Nat) : Buffer :=
  let p1 := p.EncodeVarint (b.length % 2 ^ 64)
  { p1 with buf := p1.buf ++ b }

/-- Go `(*Buffer).EncodeStringBytes`; the string is given by its bytes. -/
def Buffer.EncodeStringBytes (p : Buffer) (s : List Nat) : Buffer :=
  let p1 := p.EncodeVarint (s.length % 2 ^ 64)
  { p1 with buf := p1.buf ++ s }

/-- The byte count the spec gives for an unsigned varint: one byte per 7 significant
bits (`Nat.size` is the bit length), and one byte for zero. -/
def uvarintSizeSpec (x : Nat) : Nat :=
  if x = 0 then 1 else (Nat.size x + 6) / 7

/-! ## `encoding/binary` readers used by the scanner

`binary.Uvarint` and `binary.Varint` are functions of the Go standard library
(package `encoding/binary`, `MaxVarintLen64 = 10`); they are transcribed here
from the library source. -/

/-- The loop of Go `binary.Uvarint`, `for i, b := range buf`, with the
accumulators `x` and `s` and the loop index `i`. -/
def binary.UvarintLoop (x s i : Nat) : List Nat → Nat × Int
  | [] => (0, 0)
  | b :: rest =>
    if i = 10 then (0, -((i : Int) + 1))
    else if b < 0x80 then
      if i = 10 - 1 ∧ b > 1 then (0, -((i : Int) + 1))
      else (x ||| (b <<< s) % 2 ^ 64, (i : Int) + 1)
    else binary.UvarintLoop (x ||| ((b &&& 0x7f) <<< s) % 2 ^ 64) (s + 7) (i + 1) rest

/-- Go `binary.Uvarint(buf)`: the decoded value and the number of bytes read
(`0`: buffer too small, negative: overflow). -/
def binary.Uvarint (buf : List Nat) : Nat × Int := binary.UvarintLoop 0 0 0 buf

/-- Go `binary.Varint(buf)`: `Uvarint` followed by the zigzag decoding
`x := int64(ux >> 1); if ux&1 != 0 { x = ^x }`. -/
def binary.Varint (buf : List Nat) : Int × Int :=
  let (ux, n) := binary.Uvarint buf
  let x := int64 (ux >>> 1)
  (if ux &&& 1 ≠ 0 then -x - 1 else x, n)

/-! ## The scanner (cmd/aminoscan/aminoscan.go) -/

/-- Modelled from the spec: the wire-type constant `amino.Typ3Varint` (the declaration of
`Typ3` is not among the sources); spec section 6 gives `0` = Varint. -/
def Typ3Varint : Nat := 0

/-- Modelled from the spec: the wire-type constant `amino.Typ38Byte` (the declaration of
`Typ3` is not among the sources); spec section 6 gives `1` = Fixed64. -/
def Typ38Byte : Nat := 1

/-- Modelled from the spec: the wire-type constant `amino.Typ3ByteLength` (the declaration
of `Typ3` is not among the sources); spec section 6 gives `2` = ByteLength. -/
def Typ3ByteLength : Nat := 2

/-- Modelled from the spec: the wire-type constant `amino.Typ3_4Byte` (the declaration of
`Typ3` is not among the sources); spec section 6 gives `5` = Fixed32. -/
def Typ3_4Byte : Nat := 5

/-- A Go run-time panic of the scanner: an index out of range (a slice expression or
the `panic("eof")` of `slide`), or the `panic("should not happen")` of `scanAny`. -/
inductive Panic where
  | outOfRange
  | shouldNotHappen
  deriving DecidableEq, Repr

deriving instance DecidableEq for Except

/-- The results `(n, err)` of a scan function; `err = none` is Go's `nil`. -/
structure ScanResult where
  n : Int
  err : Option String
  deriving DecidableEq, Repr

/-- The results `(typ, n, err)` of `scanFieldKey`, with the field number it prints. -/
structure FieldKeyResult where
  typ : Nat
  number : Nat
  n : Int
  err : Option String
  deriving DecidableEq, Repr

/-- The bounds check of a Go slice expression `bz[:k]`. -/
def sliceTo (bz : List Nat) (k : Int) : Except Panic (List Nat) :=
  if k < 0 ∨ (bz.length : Int) < k then .error .outOfRange else .ok (bz.take k.toNat)

/-- Go `slide(&bz, &n, _n)`: panics with "eof" when `len(bz) < _n`, then
`bz = bz[_n:]` and `n += _n`. -/
def slide (bz : List Nat) (n : Int) (_n : Int) : Except Panic (List Nat × Int) :=
  if (bz.length : Int) < _n then .error .outOfRange
  else if _n < 0 then .error .outOfRange
  else .ok (bz.drop _n.toNat, n + _n)

/-- Go `scanVarint`. -/
def scanVarint (bz : List Nat) : Except Panic ScanResult :=
  let err : Option String := if bz.length = 0 then some "EOF while reading (U)Varint" else none
  -- First try Varint.
  let r := binary.Varint bz
  let okI64 : Bool := if r.2 ≤ 0 then false else true
  let n : Int := if r.2 ≤ 0 then 0 else r.2
  -- Then try Uvarint.
  let u := binary.Uvarint bz
  let okU64 : Bool := if n ≠ u.2 then false else true
  let n : Int := if n ≠ u.2 then 0 else n
  -- If neither work, return error.
  if !okI64 && !okU64 then .ok { n := n, err := some "Invalid (u)varint" }
  else do
    let _ ← sliceTo bz n
    .ok { n := n, err := err }

/-- Go `scan8Byte`. -/
def scan8Byte (bz : List Nat) : Except Panic ScanResult :=
  if bz.length < 8 then
    .ok { n := 0, err := some "while reading 8byte field, EOF was encountered" }
  else do
    let _ ← sliceTo bz 8
    .ok { n := 8, err := none }

/-- Go `scan4Byte`. -/
def scan4Byte (bz : List Nat) : Except Panic ScanResult :=
  if bz.length < 4 then
    .ok { n := 0, err := some "while reading 8byte field, EOF was encountered" }
  else do
    let _ ← sliceTo bz 4
    .ok { n := 4, err := none }

/-- Go `scanByteLength`.  The first test reads the result `n` (still `0`), not `_n`, as
in the source; `length = int(l64)` is the two's complement reinterpretation (`int` is 64
bits wide). -/
def scanByteLength (bz : List Nat) : Except Panic ScanResult :=
  let n : Int := 0
  let r := binary.Uvarint bz
  let l64 := r.1
  let _n := r.2
  if n < 0 then .ok { n := 0, err := some "error decoding uvarint" }
  else
    let length : Int := int64 l64
    if length ≥ (bz.length : Int) then
      .ok { n := n, err := some "while reading 8byte field, EOF was encountered" }
    else do
      let _ ← sliceTo bz _n
      let (bz, n) ← slide bz n _n
      -- Read the remaining bytes.
      let _ ← sliceTo bz length
      let (_, n) ← slide bz n length
      .ok { n := n, err := none }

/-- Go `scanAny`. -/
def scanAny (typ : Nat) (bz : List Nat) : Except Panic ScanResult :=
  if typ = Typ3Varint then scanVarint bz
  else if typ = Typ38Byte then scan8Byte bz
  else if typ = Typ3ByteLength then scanByteLength bz
  else if typ = Typ3_4Byte then scan4Byte bz
  else .error .shouldNotHappen

/-- Go `scanFieldKey`. -/
def scanFieldKey (bz : List Nat) : Except Panic FieldKeyResult :=
  let r := binary.Uvarint bz
  let u64 := r.1
  let n := r.2
  if n < 0 then .ok { typ := 0, number := 0, n := 0, err := some "error decoding uvarint" }
  else do
    let typ := u64 &&& 0x07
    let number := uint32 (u64 >>> 3)
    let _ ← sliceTo bz n
    .ok { typ := typ, number := number, n := n, err := none }

/-- The `for` loop of Go `scanStruct`, with the remaining input `bz` and the results
`n` and `err` as loop state.  The Go loop has no bound; `fuel` bounds the number of
iterations and `none` means the fuel ran out. -/
def scanStructLoop (isRoot : Bool) :
    Nat → List Nat → Int → Option String → Option (Except Panic ScanResult)
  | 0, _, _, _ => none
  | fuel + 1, bz, n, err =>
    if isRoot && bz.length = 0 then some (.ok { n := n, err := err })
    else
      match scanFieldKey bz with
      | .error e => some (.error e)
      | .ok k =>
        match slide bz n k.n with
        | .error e => some (.error e)
        | .ok (bz, n) =>
          if k.err ≠ none then some (.ok { n := n, err := k.err })
          else
            match scanAny k.typ bz with
            | .error e => some (.error e)
            | .ok a =>
              match slide bz n a.n with
              | .error e => some (.error e)
              | .ok (bz, n) =>
                if a.err ≠ none then some (.ok { n := n, err := a.err })
                else scanStructLoop isRoot fuel bz n a.err

/-- Go `scanStruct(bz, indent, isRoot)`: the results start at their zero values. -/
def scanStruct (fuel : Nat) (bz : List Nat) (isRoot : Bool) :
    Option (Except Panic ScanResult) :=
  scanStructLoop isRoot fuel bz 0 none

/-! ## Notions used to state the properties -/

/-- The bytes `Buffer.EncodeVarint` writes for `x` into an empty buffer. -/
def varintOf (x : Nat) : List Nat := (Buffer.EncodeVarint ⟨[], 0⟩ x).buf

/-- The value of a byte string read as little-endian 7-bit groups. -/
def groupValue : List Nat → Nat
  | [] => 0
  | b :: bs => (b &&& 0x7F) + 128 * groupValue bs

/-- One field entry of a bare message: a field number with a payload of one of the four
wire types. -/
inductive FieldEntry where
  | varint (num : Nat) (v : Nat)
  | fixed64 (num : Nat) (v : Nat)
  | byteLength (num : Nat) (b : List Nat)
  | fixed32 (num : Nat) (v : Nat)
  deriving DecidableEq, Repr

/-- The values of a field entry are in the range of their Go types: a `uint32` field
number, a `uint64` value, a slice length below `2 ^ 63`. -/
def FieldEntry.wellFormed : FieldEntry → Prop
  | .varint num v => num < 2 ^ 32 ∧ v < 2 ^ 64
  | .fixed64 num v => num < 2 ^ 32 ∧ v < 2 ^ 64
  | .byteLength num b => num < 2 ^ 32 ∧ b.length < 2 ^ 63
  | .fixed32 num v => num < 2 ^ 32 ∧ v < 2 ^ 64

instance (f : FieldEntry) : Decidable f.wellFormed := by
  cases f <;> unfold FieldEntry.wellFormed <;> infer_instance

/-- Writing one field entry with the writers of `Buffer`: the field key
`(num << 3) | typ` as a varint, then the payload with the writer of its wire type. -/
def FieldEntry.write (p : Buffer) : FieldEntry → Buffer
  | .varint num v => (p.EncodeVarint ((num <<< 3) ||| Typ3Varint)).EncodeVarint v
  | .fixed64 num v => (p.EncodeVarint ((num <<< 3) ||| Typ38Byte)).EncodeFixed64 v
  | .byteLength num b => (p.EncodeVarint ((num <<< 3) ||| Typ3ByteLength)).EncodeRawBytes b
  | .fixed32 num v => (p.EncodeVarint ((num <<< 3) ||| Typ3_4Byte)).EncodeFixed32 v

/-- Writing a bare message: its field entries one after the other. -/
def writeMessage (p : Buffer) (fs : List FieldEntry) : Buffer :=
  fs.foldl FieldEntry.write p

/-- A Go `[]byte` as a caller holds it: the `nil` slice, or an allocated slice with its
elements (possibly none). -/
inductive ByteSlice where
  | nil
  | alloc (elems : List Nat)
  deriving DecidableEq, Repr

/-- What `len(b)` and `b...` observe of a slice: its elements, none for `nil`. -/
def ByteSlice.elems : ByteSlice → List Nat
  | .nil => []
  | .alloc l => l

/-- Writing a sequence of values one after the other with `Buffer.EncodeVarint`. -/
def writeVarints (p : Buffer) (xs : List Nat) : Buffer :=
  xs.foldl Buffer.EncodeVarint p

/-! ## `Buffer` with its backing array

A `Buffer` above records the contents of `p.buf` only, and a byte-slice argument is a list
of values: that is the program as long as an argument shares no memory with the buffer.
Go slices are views of arrays, `Reset` keeps the backing array, and `append` writes in
place while the capacity lasts, so a slice the caller still holds can be overwritten by a
write.  The model below keeps the memory: `mem` is the memory the caller's slices view,
and the buffer is either a view of it or, once `append` has had to grow it, an array of
its own. -/

/-- A Go slice header: offset into the memory, length and capacity. -/
structure Slice where
  off : Nat
  len : Nat
  cap : Nat
  deriving DecidableEq, Repr

/-- The elements a slice shows in the memory `mem`. -/
def Slice.read (mem : List Nat) (s : Slice) : List Nat := (mem.drop s.off).take s.len

/-- The slice lies inside the memory. -/
def Slice.inBounds (mem : List Nat) (s : Slice) : Prop := s.off + s.len ≤ mem.length

instance (mem : List Nat) (s : Slice) : Decidable (s.inBounds mem) := by
  unfold Slice.inBounds; infer_instance

/-- Overwriting the cells `pos, pos + 1, ...` of the memory with `bs`. -/
def writeAt (mem : List Nat) (pos : Nat) (bs : List Nat) : List Nat :=
  mem.take pos ++ bs ++ mem.drop (pos + bs.length)

/-- Where `p.buf` lives: a view of the shared memory, or an array of its own that
`append` allocated (no slice of the caller views it; only its contents matter). -/
inductive Mem.Backing where
  | shared (s : Slice)
  | own (content : List Nat)
  deriving DecidableEq, Repr

/-- The Go struct `Buffer` together with the memory its slice may share. -/
structure Mem.Buffer where
  mem : List Nat
  buf : Mem.Backing
  index : Int
  deriving DecidableEq, Repr

/-- The slice header of the buffer is consistent with the memory. -/
def Mem.Buffer.wf (p : Mem.Buffer) : Prop :=
  match p.buf with
  | .shared s => s.len ≤ s.cap ∧ s.off + s.cap ≤ p.mem.length
  | .own _ => True

instance (p : Mem.Buffer) : Decidable p.wf := by
  unfold Mem.Buffer.wf; split <;> infer_instance

/-- The slice `a` shows no cell of the spare capacity of the buffer, the cells between
its length and its capacity (an empty slice shows no cell at all). -/
def Mem.Buffer.clearOf (p : Mem.Buffer) (a : Slice) : Prop :=
  match p.buf with
  | .shared s => a.len = 0 ∨ a.off + a.len ≤ s.off + s.len ∨ s.off + s.cap ≤ a.off
  | .own _ => True

instance (p : Mem.Buffer) (a : Slice) : Decidable (p.clearOf a) := by
  unfold Mem.Buffer.clearOf; split <;> infer_instance

/-- Go `(*Buffer).Bytes` on the memory model. -/
def Mem.Buffer.Bytes (p : Mem.Buffer) : List Nat :=
  match p.buf with
  | .shared s => s.read p.mem
  | .own c => c

/-- Go `p.buf = append(p.buf, bs...)`: in place while the capacity lasts, otherwise into
a new array that receives the old contents and `bs`. -/
def Mem.Buffer.append (p : Mem.Buffer) (bs : List Nat) : Mem.Buffer :=
  match p.buf with
  | .shared s =>
    if s.len + bs.length ≤ s.cap then
      { p with mem := writeAt p.mem (s.off + s.len) bs,
               buf := .shared { s with len := s.len + bs.length } }
    else
      { p with buf := .own (s.read p.mem ++ bs) }
  | .own c => { p with buf := .own (c ++ bs) }

/-- Go `NewBuffer(e)` for a slice `e` of the memory `mem`. -/
def Mem.NewBuffer (mem : List Nat) (e : Slice) : Mem.Buffer :=
  { mem := mem, buf := .shared e, index := 0 }

/-- Go `(*Buffer).Reset`: `p.buf[0:0]` keeps the array and the capacity. -/
def Mem.Buffer.Reset (p : Mem.Buffer) : Mem.Buffer :=
  match p.buf with
  | .shared s => { p with buf := .shared { s with len := 0 }, index := 0 }
  | .own _ => { p with buf := .own [], index := 0 }

/-- Go `(*Buffer).SetBuf` for a slice `s` of the memory. -/
def Mem.Buffer.SetBuf (p : Mem.Buffer) (s : Slice) : Mem.Buffer :=
  { p with buf := .shared s, index := 0 }

/-- Go `(*Buffer).WriteBytes` for a slice `b` of the memory: one `append`, which copies
as if through a temporary. -/
def Mem.Buffer.WriteBytes (p : Mem.Buffer) (b : Slice) : Mem.Buffer :=
  p.append (b.read p.mem)

/-- Go `(*Buffer).EncodeVarint` on the memory model: one `append` per byte. -/
def Mem.Buffer.EncodeVarint (p : Mem.Buffer) (x : Nat) : Mem.Buffer :=
  if 1 <<< 7 ≤ x then
    Mem.Buffer.EncodeVarint (p.append [uint8 (x &&& 0x7f ||| 0x80)]) (x >>> 7)
  else
    p.append [uint8 x]
termination_by x
decreasing_by
  simp only [Nat.shiftRight_eq_div_pow]
  omega

/-- Go `(*Buffer).EncodeFixed64` on the memory model: one `append` of eight bytes. -/
def Mem.Buffer.EncodeFixed64 (p : Mem.Buffer) (x : Nat) : Mem.Buffer :=
  p.append [uint8 x, uint8 (x >>> 8), uint8 (x >>> 16), uint8 (x >>> 24),
    uint8 (x >>> 32), uint8 (x >>> 40), uint8 (x >>> 48), uint8 (x >>> 56)]

/-- Go `(*Buffer).EncodeFixed32` on the memory model: one `append` of four bytes. -/
def Mem.Buffer.EncodeFixed32 (p : Mem.Buffer) (x : Nat) : Mem.Buffer :=
  p.append [uint8 x, uint8 (x >>> 8), uint8 (x >>> 16), uint8 (x >>> 24)]

/-- Go `(*Buffer).EncodeBool` on the memory model. -/
def Mem.Buffer.EncodeBool (p : Mem.Buffer) (b : Bool) : Mem.Buffer :=
  if b then p.EncodeVarint 1 else p.EncodeVarint 0

/-- Go `(*Buffer).EncodeZigzag64` on the memory model. -/
def Mem.Buffer.EncodeZigzag64 (p : Mem.Buffer) (x : Nat) : Mem.Buffer :=
  p.EncodeVarint (((x <<< 1) % 2 ^ 64) ^^^ uint64 (int64 x >>> (63 : Nat)))

/-- Go `(*Buffer).EncodeZigzag32` on the memory model. -/
def Mem.Buffer.EncodeZigzag32 (p : Mem.Buffer) (x : Nat) : Mem.Buffer :=
  p.EncodeVarint (((uint32 x <<< 1) % 2 ^ 32) ^^^ uint32OfInt (int32 x >>> (31 : Nat)))

/-- Go `(*Buffer).EncodeRawBytes` for a slice `b` of the memory: the length is written
first, and `b` is read for the second `append` in the memory as the first left it. -/
def Mem.Buffer.EncodeRawBytes (p : Mem.Buffer) (b : Slice) : Mem.Buffer :=
  let p1 := p.EncodeVarint (b.len % 2 ^ 64)
  p1.append (b.read p1.mem)

/-- Go `(*Buffer).EncodeStringBytes`: a string is immutable and shares no memory with a
slice, so it is given by its bytes. -/
def Mem.Buffer.EncodeStringBytes (p : Mem.Buffer) (s : List Nat) : Mem.Buffer :=
  let p1 := p.EncodeVarint (s.length % 2 ^ 64)
  p1.append s

/-- The contents and the index of a buffer of the memory model. -/
def Mem.Buffer.contents (p : Mem.Buffer) : Amino.Buffer :=
  { buf := p.Bytes, index := p.index }

/-! ## The varint writer -/

theorem or_0x80_of_lt : ∀ a, a < 128 → a ||| 0x80 = a + 128 := by decide

theorem low7_ge (x : Nat) : uint8 (x &&& 0x7f ||| 0x80) = x % 128 + 128 := by
  have h1 : x &&& 0x7f = x % 128 := Nat.and_pow_two_sub_one_eq_mod x 7
  have h2 : x % 128 < 128 := Nat.mod_lt _ (by decide)
  rw [h1, or_0x80_of_lt _ h2, uint8]
  omega

theorem EncodeVarint_lt (p : Buffer) (x : Nat) (h : x < 128) :
    p.EncodeVarint x = ⟨p.buf ++ [x], p.index⟩ := by
  rw [Buffer.EncodeVarint]
  have h' : ¬ (1 <<< 7 ≤ x) := by
    have : (1 <<< 7 : Nat) = 128 := by decide
    omega
  simp only [h', if_false, uint8]
  have : x % 256 = x := Nat.mod_eq_of_lt (by omega)
  rw [this]

theorem EncodeVarint_ge (p : Buffer) (x : Nat) (h : 128 ≤ x) :
    p.EncodeVarint x =
      Buffer.EncodeVarint ⟨p.buf ++ [x % 128 + 128], p.index⟩ (x / 128) := by
  rw [Buffer.EncodeVarint]
  have h' : (1 <<< 7 ≤ x) := by
    have : (1 <<< 7 : Nat) = 128 := by decide
    omega
  simp only [h', if_true, low7_ge, Nat.shiftRight_eq_div_pow]

/-- Frame property of the varint writer: it appends `varintOf x` and keeps the index. -/
theorem EncodeVarint_eq (x : Nat) : ∀ p : Buffer,
    p.EncodeVarint x = ⟨p.buf ++ varintOf x, p.index⟩ := by
  induction x using Nat.strong_induction_on with
  | _ x ih =>
    intro p
    by_cases h : x < 128
    · simp [varintOf, EncodeVarint_lt _ _ h]
    · have hge : 128 ≤ x := by omega
      have hlt : x / 128 < x := Nat.div_lt_self (by omega) (by decide)
      rw [varintOf, EncodeVarint_ge _ _ hge, EncodeVarint_ge _ _ hge, ih _ hlt, ih _ hlt]
      simp

theorem varintOf_lt (x : Nat) (h : x < 128) : varintOf x = [x] := by
  simp [varintOf, EncodeVarint_lt _ _ h]

theorem varintOf_ge (x : Nat) (h : 128 ≤ x) :
    varintOf x = (x % 128 + 128) :: varintOf (x / 128) := by
  rw [varintOf, EncodeVarint_ge _ _ h, EncodeVarint_eq]
  simp

theorem varintOf_ne_nil (x : Nat) : varintOf x ≠ [] := by
  by_cases h : x < 128
  · simp [varintOf_lt _ h]
  · have hge : 128 ≤ x := by omega
    simp [varintOf_ge _ hge]

/-- Shape of a written varint: continuation bytes followed by one final byte. -/
theorem varintOf_shape (x : Nat) :
    ∃ init last, varintOf x = init ++ [last] ∧ (∀ b ∈ init, 128 ≤ b ∧ b < 256) ∧
      last < 128 := by
  induction x using Nat.strong_induction_on with
  | _ x ih =>
    by_cases h : x < 128
    · exact ⟨[], x, by simp [varintOf_lt _ h], by simp, h⟩
    · have hge : 128 ≤ x := by omega
      obtain ⟨init, last, he, hi, hl⟩ := ih (x / 128) (Nat.div_lt_self (by omega) (by decide))
      refine ⟨(x % 128 + 128) :: init, last, ?_, ?_, hl⟩
      · rw [varintOf_ge _ hge, he]; simp
      · intro b hb
        rcases List.mem_cons.mp hb with rfl | hb
        · omega
        · exact hi b hb

theorem groupValue_varintOf (x : Nat) : groupValue (varintOf x) = x := by
  induction x using Nat.strong_induction_on with
  | _ x ih =>
    by_cases h : x < 128
    · rw [varintOf_lt _ h]
      have h1 : x &&& 0x7F = x % 128 := Nat.and_pow_two_sub_one_eq_mod x 7
      simp only [groupValue, h1]
      omega
    · have hge : 128 ≤ x := by omega
      rw [varintOf_ge _ hge]
      have h1 : (x % 128 + 128) &&& 0x7F = (x % 128 + 128) % 128 :=
        Nat.and_pow_two_sub_one_eq_mod _ 7
      simp only [groupValue, h1, ih (x / 128) (Nat.div_lt_self (by omega) (by decide))]
      omega

theorem groupValue_eq_sum (bs : List Nat) :
    groupValue bs = ∑ i in Finset.range bs.length, (bs.getD i 0 &&& 0x7F) * 128 ^ i := by
  induction bs with
  | nil => simp [groupValue]
  | cons b bs ih =>
    rw [List.length_cons, Finset.sum_range_succ', groupValue, ih, Finset.mul_sum]
    simp only [List.getD_cons_succ, List.getD_cons_zero, pow_zero, mul_one, pow_succ]
    rw [add_comm]
    congr 1
    apply Finset.sum_congr rfl
    intro i _
    ring

set_option maxRecDepth 100000 in
theorem and_0x80_of_ge : ∀ b, b < 256 → 128 ≤ b → b &&& 0x80 = 0x80 := by decide

theorem and_0x80_of_lt : ∀ b, b < 128 → b &&& 0x80 = 0 := by decide

/-- Number of bytes of a written varint, by the size of the value. -/
theorem length_varintOf_le_iff (k : Nat) : ∀ x, (varintOf x).length ≤ k + 1 ↔ x < 2 ^ (7 * (k + 1)) := by
  induction k with
  | zero =>
    intro x
    by_cases h : x < 128
    · simp [varintOf_lt _ h]; omega
    · rw [varintOf_ge _ (by omega)]
      have := varintOf_ne_nil (x / 128)
      have : 0 < (varintOf (x / 128)).length := List.length_pos.mpr this
      simp only [List.length_cons]
      constructor
      · intro h'; omega
      · intro h'; norm_num at h'; omega
  | succ k ih =>
    intro x
    by_cases h : x < 128
    · rw [varintOf_lt _ h]
      have : (2:Nat) ^ 7 ≤ 2 ^ (7 * (k + 1 + 1)) := Nat.pow_le_pow_right (by decide) (by omega)
      simp only [List.length_singleton]
      constructor
      · intro _; norm_num at this; omega
      · intro _; omega
    · rw [varintOf_ge _ (by omega), List.length_cons, Nat.add_le_add_iff_right, ih (x / 128)]
      have e : (2:Nat) ^ (7 * (k + 1 + 1)) = 2 ^ (7 * (k + 1)) * 128 := by
        rw [show 7 * (k + 1 + 1) = 7 * (k + 1) + 7 by ring, pow_add]
        norm_num
      rw [e, Nat.div_lt_iff_lt_mul (by decide)]

theorem length_varintOf_pos (x : Nat) : 1 ≤ (varintOf x).length :=
  List.length_pos.mpr (varintOf_ne_nil x)

theorem length_varintOf (x : Nat) : (varintOf x).length = uvarintSizeSpec x := by
  have hpos := length_varintOf_pos x
  unfold uvarintSizeSpec
  by_cases h0 : x = 0
  · subst h0
    simp [varintOf_lt 0 (by decide)]
  · rw [if_neg h0]
    have hs : 1 ≤ Nat.size x := Nat.size_pos.mpr (Nat.pos_of_ne_zero h0)
    obtain ⟨l, hl⟩ : ∃ l, (varintOf x).length = l + 1 := ⟨_, (Nat.sub_add_cancel hpos).symm⟩
    obtain ⟨m, hm⟩ : ∃ m, (Nat.size x + 6) / 7 = m + 1 :=
      ⟨(Nat.size x + 6) / 7 - 1, by omega⟩
    have h1 : Nat.size x ≤ 7 * (l + 1) :=
      Nat.size_le.mpr ((length_varintOf_le_iff l x).mp (by omega))
    have h2 : (varintOf x).length ≤ m + 1 :=
      (length_varintOf_le_iff m x).mpr (Nat.size_le.mp (by omega))
    omega

theorem length_varintOf_le_ten (x : Nat) (hx : x < 2 ^ 64) : (varintOf x).length ≤ 10 :=
  (length_varintOf_le_iff 9 x).mpr (lt_of_lt_of_le hx (by norm_num))

/-! ## Claims about the writers -/

/-- C1: for every 64-bit unsigned `x` and every buffer, `Buffer.EncodeVarint` appends a
non-empty byte string `bs` whose 7-bit groups, little-endian, sum to `x`; every byte of
`bs` but the last has the continuation bit `0x80` set, the last has it clear, and all are
bytes. -/
theorem C1_EncodeVarint_base128 (p : Buffer) (x : Nat) (hx : x < 2 ^ 64) :
    ∃ bs : List Nat, (p.EncodeVarint x).buf = p.buf ++ bs ∧ bs ≠ [] ∧
      x = ∑ i in Finset.range bs.length, (bs.getD i 0 &&& 0x7F) * 128 ^ i ∧
      (∀ i, i + 1 < bs.length → bs.getD i 0 &&& 0x80 = 0x80) ∧
      bs.getD (bs.length - 1) 0 &&& 0x80 = 0 ∧
      (∀ b ∈ bs, b < 256) ∧ bs.length ≤ 10 := by
  refine ⟨varintOf x, by rw [EncodeVarint_eq], varintOf_ne_nil x, ?_, ?_, ?_, ?_,
    length_varintOf_le_ten x hx⟩
  · rw [← groupValue_eq_sum, groupValue_varintOf]
  · obtain ⟨init, last, he, hi, _⟩ := varintOf_shape x
    intro i hlt
    rw [he] at hlt ⊢
    have hi' : i < init.length := by simpa using hlt
    rw [List.getD_append _ _ _ _ hi', List.getD_eq_getElem _ _ hi']
    have := hi _ (List.getElem_mem hi')
    exact and_0x80_of_ge _ this.2 this.1
  · obtain ⟨init, last, he, _, hl⟩ := varintOf_shape x
    rw [he]
    have : (init ++ [last]).length - 1 = init.length := by simp
    rw [this, List.getD_append_right _ _ _ _ (le_refl _)]
    simpa using and_0x80_of_lt _ hl
  · obtain ⟨init, last, he, hi, hl⟩ := varintOf_shape x
    intro b hb
    rw [he] at hb
    rcases List.mem_append.mp hb with hb | hb
    · exact (hi b hb).2
    · have : b = last := by simpa using hb
      omega

theorem C1_EncodeVarint_base128_witness :
    (300 : Nat) < 2 ^ 64 ∧
    ∃ bs : List Nat, (Buffer.EncodeVarint ⟨[7], 0⟩ 300).buf = [7] ++ bs ∧ bs ≠ [] ∧
      300 = ∑ i in Finset.range bs.length, (bs.getD i 0 &&& 0x7F) * 128 ^ i ∧
      (∀ i, i + 1 < bs.length → bs.getD i 0 &&& 0x80 = 0x80) ∧
      bs.getD (bs.length - 1) 0 &&& 0x80 = 0 ∧
      (∀ b ∈ bs, b < 256) ∧ bs.length ≤ 10 :=
  ⟨by decide, C1_EncodeVarint_base128 ⟨[7], 0⟩ 300 (by decide)⟩

/-- C2: for every 64-bit unsigned `x`, `Buffer.EncodeVarint` appends exactly
`uvarintSizeSpec x` bytes (one byte per 7 significant bits, one byte for zero), between 1
and 10; in particular the counts for 0, 1, 32, 64, 127, 128, 2^61, 2^62 and 2^63 are
1, 1, 1, 1, 1, 2, 9, 9 and 10. -/
theorem C2_EncodeVarint_length (p : Buffer) (x : Nat) (hx : x < 2 ^ 64) :
    ((p.EncodeVarint x).buf.length = p.buf.length + uvarintSizeSpec x ∧
      1 ≤ uvarintSizeSpec x ∧ uvarintSizeSpec x ≤ 10) ∧
    (p.EncodeVarint 0).buf.length = p.buf.length + 1 ∧
    (p.EncodeVarint 1).buf.length = p.buf.length + 1 ∧
    (p.EncodeVarint 32).buf.length = p.buf.length + 1 ∧
    (p.EncodeVarint 64).buf.length = p.buf.length + 1 ∧
    (p.EncodeVarint 127).buf.length = p.buf.length + 1 ∧
    (p.EncodeVarint 128).buf.length = p.buf.length + 2 ∧
    (p.EncodeVarint (2 ^ 61)).buf.length = p.buf.length + 9 ∧
    (p.EncodeVarint (2 ^ 62)).buf.length = p.buf.length + 9 ∧
    (p.EncodeVarint (2 ^ 63)).buf.length = p.buf.length + 10 := by
  refine ⟨⟨?_, ?_, ?_⟩, ?_⟩
  · rw [EncodeVarint_eq, List.length_append, length_varintOf]
  · rw [← length_varintOf]; exact length_varintOf_pos x
  · rw [← length_varintOf]; exact length_varintOf_le_ten x hx
  · simp only [EncodeVarint_eq, List.length_append]
    norm_num [varintOf_ge, varintOf_lt]

theorem C2_EncodeVarint_length_witness :
    (300 : Nat) < 2 ^ 64 ∧
    (Buffer.EncodeVarint ⟨[7], 0⟩ 300).buf.length
        = (Buffer.mk [7] 0).buf.length + uvarintSizeSpec 300 ∧
      1 ≤ uvarintSizeSpec 300 ∧ uvarintSizeSpec 300 ≤ 10 :=
  ⟨by decide, (C2_EncodeVarint_length ⟨[7], 0⟩ 300 (by decide)).1⟩

theorem xor_allOnes (n y : Nat) (hy : y < 2 ^ n) : y ^^^ (2 ^ n - 1) = 2 ^ n - 1 - y := by
  apply Nat.eq_of_testBit_eq
  intro i
  have e : 2 ^ n - 1 - y = 2 ^ n - (y + 1) := by omega
  rw [e, Nat.testBit_xor, Nat.testBit_two_pow_sub_one, Nat.testBit_two_pow_sub_succ hy]
  by_cases hi : i < n
  · simp [hi]
  · have hle : n ≤ i := by omega
    have hlt : y < 2 ^ i := lt_of_lt_of_le hy (Nat.pow_le_pow_right (by decide) hle)
    simp [hi, Nat.testBit_lt_two_pow hlt]

theorem int64_of_lt (x : Nat) (h : x < 2 ^ 63) : int64 x = (x : Int) := by
  unfold int64
  have : x % 2 ^ 64 = x := Nat.mod_eq_of_lt (by omega)
  rw [this, if_pos h]

theorem int64_of_ge (x : Nat) (h : 2 ^ 63 ≤ x) (hx : x < 2 ^ 64) :
    int64 x = (x : Int) - 2 ^ 64 := by
  unfold int64
  have : x % 2 ^ 64 = x := Nat.mod_eq_of_lt hx
  rw [this, if_neg (by omega)]

theorem sign_word_of_lt (x : Nat) (h : x < 2 ^ 63) : uint64 (int64 x >>> (63 : Nat)) = 0 := by
  rw [int64_of_lt x h, Int.shiftRight_eq_div_pow]
  have : (x : Int) / ((2 ^ 63 : Nat) : Int) = 0 :=
    Int.ediv_eq_zero_of_lt (by omega) (by exact_mod_cast h)
  rw [this]
  rfl

theorem sign_word_of_ge (x : Nat) (h : 2 ^ 63 ≤ x) (hx : x < 2 ^ 64) :
    uint64 (int64 x >>> (63 : Nat)) = 2 ^ 64 - 1 := by
  rw [int64_of_ge x h hx, Int.shiftRight_eq_div_pow]
  have : ((x : Int) - 2 ^ 64) / ((2 ^ 63 : Nat) : Int) = -1 := by
    have h1 : ((2 ^ 63 : Nat) : Int) = 2 ^ 63 := by norm_num
    rw [h1]
    omega
  rw [this]
  rfl

/-- The value `Buffer.EncodeZigzag64` hands to the varint writer. -/
theorem zigzag64_value (x : Nat) (hx : x < 2 ^ 64) :
    ((x <<< 1) % 2 ^ 64) ^^^ uint64 (int64 x >>> (63 : Nat))
      = if x < 2 ^ 63 then 2 * x else 2 ^ 65 - 1 - 2 * x := by
  rw [Nat.shiftLeft_eq]
  by_cases h : x < 2 ^ 63
  · rw [sign_word_of_lt x h, if_pos h, Nat.xor_zero, Nat.mod_eq_of_lt (by omega)]
    omega
  · have hge : 2 ^ 63 ≤ x := by omega
    have hm : x * 2 ^ 1 % 2 ^ 64 = 2 * x - 2 ^ 64 := by omega
    rw [sign_word_of_ge x hge hx, if_neg h, hm, xor_allOnes 64 _ (by omega)]
    omega

theorem EncodeVarint_120 : (Buffer.EncodeVarint ⟨[], 0⟩ 120).buf = [0x78] := by
  rw [EncodeVarint_eq, varintOf_lt 120 (by decide)]
  rfl

theorem EncodeVarint_240 : (Buffer.EncodeVarint ⟨[], 0⟩ 240).buf = [0xF0, 0x01] := by
  rw [EncodeVarint_eq, varintOf_ge 240 (by decide), varintOf_lt (240 / 128) (by decide)]
  rfl

theorem EncodeZigzag64_120 : (Buffer.EncodeZigzag64 ⟨[], 0⟩ 120).buf = [0xF0, 0x01] := by
  rw [Buffer.EncodeZigzag64, zigzag64_value 120 (by decide), if_pos (by decide)]
  exact EncodeVarint_240

/-- C3 (as stated, refuted): writing 120 with `Buffer.EncodeVarint` into an empty buffer
does not yield `[0xF0, 0x01]`; it yields `[0x78]`. -/
theorem C3_EncodeVarint_120_not_zigzag :
    ¬ ((Buffer.EncodeVarint ⟨[], 0⟩ 120).buf = [0xF0, 0x01]) := by
  rw [EncodeVarint_120]
  decide

/-- C4: for every 64-bit `x`, `Buffer.EncodeZigzag64` writes what `Buffer.EncodeVarint`
writes for `z = (x << 1) XOR (x >> 63, sign-extended)` taken modulo `2 ^ 64` (the
sign-extended shift is the all-ones word when bit 63 of `x` is set and zero otherwise);
with `n = int64 x` the signed reading of `x`, `z` is `2 * n` for `n ≥ 0` and
`-2 * n - 1` for `n < 0`.  On 120 the zigzag writer gives `[0xF0, 0x01]` and the plain
writer gives `[0x78]`. -/
theorem C4_EncodeZigzag64 (p : Buffer) (x : Nat) (hx : x < 2 ^ 64) :
    (∃ z : Nat, z < 2 ^ 64 ∧ p.EncodeZigzag64 x = p.EncodeVarint z ∧
      z = ((2 * x) % 2 ^ 64) ^^^ (if 2 ^ 63 ≤ x then 2 ^ 64 - 1 else 0) ∧
      (z : Int) = if 0 ≤ int64 x then 2 * int64 x else -2 * int64 x - 1) ∧
    (Buffer.EncodeZigzag64 ⟨[], 0⟩ 120).buf = [0xF0, 0x01] ∧
    (Buffer.EncodeVarint ⟨[], 0⟩ 120).buf = [0x78] := by
  refine ⟨⟨_, ?_, rfl, ?_, ?_⟩, EncodeZigzag64_120, EncodeVarint_120⟩
  · rw [zigzag64_value x hx]
    split <;> omega
  · rw [Nat.shiftLeft_eq]
    by_cases h : x < 2 ^ 63
    · rw [sign_word_of_lt x h, if_neg (by omega)]
      congr 2
      omega
    · rw [sign_word_of_ge x (by omega) hx, if_pos (by omega)]
      congr 2
      omega
  · rw [zigzag64_value x hx]
    by_cases h : x < 2 ^ 63
    · rw [if_pos h, int64_of_lt x h, if_pos (by omega)]
      push_cast
      ring
    · rw [if_neg h, int64_of_ge x (by omega) hx, if_neg (by omega)]
      omega

theorem C4_EncodeZigzag64_witness :
    ((2 ^ 64 - 3 : Nat) < 2 ^ 64) ∧
    ∃ z : Nat, z < 2 ^ 64 ∧
      Buffer.EncodeZigzag64 ⟨[], 0⟩ (2 ^ 64 - 3) = Buffer.EncodeVarint ⟨[], 0⟩ z ∧
      z = ((2 * (2 ^ 64 - 3)) % 2 ^ 64) ^^^ (if 2 ^ 63 ≤ 2 ^ 64 - 3 then 2 ^ 64 - 1 else 0) ∧
      (z : Int) = if 0 ≤ int64 (2 ^ 64 - 3) then 2 * int64 (2 ^ 64 - 3)
        else -2 * int64 (2 ^ 64 - 3) - 1 :=
  ⟨by decide, (C4_EncodeZigzag64 ⟨[], 0⟩ (2 ^ 64 - 3) (by decide)).1⟩

/-! ## Reading back what the writers wrote -/

theorem or_shiftLeft_of_lt (acc y s : Nat) (h : acc < 2 ^ s) :
    acc ||| (y <<< s) = acc + y * 2 ^ s := by
  rw [Nat.shiftLeft_eq, Nat.or_comm, mul_comm y, ← Nat.mul_add_lt_is_or h, add_comm]

/-- The loop of `binary.Uvarint`, started in the middle of a varint, reads back a value
written by `Buffer.EncodeVarint` and stops at its last byte. -/
theorem UvarintLoop_varintOf (v : Nat) : ∀ (acc i : Nat) (rest : List Nat),
    i ≤ 9 → acc < 2 ^ (7 * i) → v * 2 ^ (7 * i) < 2 ^ 64 →
    binary.UvarintLoop acc (7 * i) i (varintOf v ++ rest)
      = (acc + v * 2 ^ (7 * i), (i : Int) + (varintOf v).length) := by
  induction v using Nat.strong_induction_on with
  | _ v ih =>
    intro acc i rest hi hacc hv
    by_cases h : v < 128
    · rw [varintOf_lt _ h]
      have h10 : ¬ i = 10 := by omega
      have h9 : ¬ (i = 10 - 1 ∧ v > 1) := by
        rintro ⟨h9, hv1⟩
        have h9' : i = 9 := h9
        subst h9'
        norm_num at hv
        omega
      have hsh : v <<< (7 * i) % 2 ^ 64 = v * 2 ^ (7 * i) := by
        rw [Nat.shiftLeft_eq, Nat.mod_eq_of_lt hv]
      rw [List.singleton_append, binary.UvarintLoop, if_neg h10, if_pos h, if_neg h9, hsh,
        ← Nat.shiftLeft_eq, or_shiftLeft_of_lt acc v (7 * i) hacc]
      simp [Nat.shiftLeft_eq]
    · have hge : 128 ≤ v := by omega
      have hpos : 0 < 2 ^ (7 * i) := Nat.two_pow_pos _
      have hi8 : i ≤ 8 := by
        by_contra hc
        have h9' : i = 9 := by omega
        subst h9'
        norm_num at hv
        omega
      have h10 : ¬ i = 10 := by omega
      have hb : ¬ (v % 128 + 128 < 0x80) := by omega
      have hlow : (v % 128 + 128) &&& 0x7f = v % 128 := by
        have := Nat.and_pow_two_sub_one_eq_mod (v % 128 + 128) 7
        rw [show (v % 128 + 128) &&& 0x7f = (v % 128 + 128) % 128 from this]
        omega
      have hpow : 2 ^ (7 * (i + 1)) = 2 ^ (7 * i) * 128 := by
        rw [show 7 * (i + 1) = 7 * i + 7 by ring, pow_add]
        norm_num
      have hdecomp : v * 2 ^ (7 * i) = v % 128 * 2 ^ (7 * i) + v / 128 * 2 ^ (7 * (i + 1)) := by
        rw [hpow]
        conv_lhs => rw [← Nat.mod_add_div v 128]
        ring
      have hsmall : v % 128 * 2 ^ (7 * i) < 2 ^ 64 := by
        have : v % 128 * 2 ^ (7 * i) ≤ v * 2 ^ (7 * i) :=
          Nat.mul_le_mul_right _ (Nat.mod_le v 128)
        omega
      have hacc' : acc + v % 128 * 2 ^ (7 * i) < 2 ^ (7 * (i + 1)) := by
        rw [hpow]
        have : v % 128 * 2 ^ (7 * i) ≤ 127 * 2 ^ (7 * i) :=
          Nat.mul_le_mul_right _ (by omega)
        omega
      have hv' : v / 128 * 2 ^ (7 * (i + 1)) < 2 ^ 64 := by omega
      rw [varintOf_ge _ hge, List.cons_append, binary.UvarintLoop, if_neg h10, if_neg hb, hlow]
      rw [Nat.shiftLeft_eq, Nat.mod_eq_of_lt hsmall, ← Nat.shiftLeft_eq,
        or_shiftLeft_of_lt acc _ _ hacc, show 7 * i + 7 = 7 * (i + 1) by ring,
        ih (v / 128) (Nat.div_lt_self (by omega) (by decide)) _ (i + 1) rest (by omega)
          hacc' hv']
      rw [hdecomp]
      simp only [List.length_cons, Prod.mk.injEq]
      constructor
      · ring
      · push_cast
        ring

theorem Uvarint_varintOf (x : Nat) (hx : x < 2 ^ 64) (rest : List Nat) :
    binary.Uvarint (varintOf x ++ rest) = (x, ((varintOf x).length : Int)) := by
  have := UvarintLoop_varintOf x 0 0 rest (by decide) (by decide) (by simpa using hx)
  simpa [binary.Uvarint] using this

/-- C5: for every 64-bit `x`, every buffer and every byte sequence `rest`,
`binary.Uvarint` applied to the bytes `Buffer.EncodeVarint` appended for `x`, followed by
`rest`, returns the value `x` and the number of appended bytes. -/
theorem C5_Uvarint_EncodeVarint (p : Buffer) (x : Nat) (rest : List Nat) (hx : x < 2 ^ 64) :
    ∃ bs : List Nat, (p.EncodeVarint x).buf = p.buf ++ bs ∧
      binary.Uvarint (bs ++ rest) = (x, (bs.length : Int)) :=
  ⟨varintOf x, by rw [EncodeVarint_eq], Uvarint_varintOf x hx rest⟩

theorem C5_Uvarint_EncodeVarint_witness :
    (300 : Nat) < 2 ^ 64 ∧
    ∃ bs : List Nat, (Buffer.EncodeVarint ⟨[7], 0⟩ 300).buf = (Buffer.mk [7] 0).buf ++ bs ∧
      binary.Uvarint (bs ++ [1, 2]) = (300, (bs.length : Int)) :=
  ⟨by decide, C5_Uvarint_EncodeVarint ⟨[7], 0⟩ 300 [1, 2] (by decide)⟩

theorem sliceTo_of_le (bz : List Nat) (k : Nat) (h : k ≤ bz.length) :
    sliceTo bz (k : Int) = .ok (bz.take k) := by
  unfold sliceTo
  rw [if_neg (by omega)]
  simp

theorem slide_of_le (bz : List Nat) (n : Int) (k : Nat) (h : k ≤ bz.length) :
    slide bz n (k : Int) = .ok (bz.drop k, n + k) := by
  unfold slide
  rw [if_neg (by omega), if_neg (by omega)]
  simp

theorem key_fields (num typ : Nat) (htyp : typ < 8) :
    ((num <<< 3) ||| typ) &&& 0x07 = typ ∧ ((num <<< 3) ||| typ) >>> 3 = num := by
  have e : (num <<< 3) ||| typ = 2 ^ 3 * num + typ := by
    rw [Nat.shiftLeft_eq, mul_comm, Nat.mul_add_lt_is_or (by simpa using htyp)]
  rw [e]
  constructor
  · rw [show (2 ^ 3 * num + typ) &&& 0x07 = (2 ^ 3 * num + typ) % 2 ^ 3 from
      Nat.and_pow_two_sub_one_eq_mod _ 3]
    omega
  · rw [Nat.shiftRight_eq_div_pow]
    omega

theorem scanFieldKey_varintOf (key : Nat) (hkey : key < 2 ^ 64) (trailing : List Nat) :
    scanFieldKey (varintOf key ++ trailing) =
      .ok { typ := key &&& 0x07, number := uint32 (key >>> 3),
            n := ((varintOf key).length : Int), err := none } := by
  unfold scanFieldKey
  simp only [Uvarint_varintOf key hkey trailing]
  rw [if_neg (by omega), sliceTo_of_le _ _ (by simp)]
  rfl

/-- C6: for every field number `num < 2 ^ 32`, every wire type `typ` among Varint,
Fixed64, ByteLength and Fixed32, every buffer and every trailing byte sequence,
`scanFieldKey` applied to the bytes `Buffer.EncodeVarint` appended for
`(num << 3) | typ`, followed by the trailing bytes, returns wire type `typ`, computes the
field number `num`, consumes exactly the bytes of the key and returns no error. -/
theorem C6_scanFieldKey_roundtrip (p : Buffer) (num typ : Nat) (trailing : List Nat)
    (hnum : num < 2 ^ 32)
    (htyp : typ = Typ3Varint ∨ typ = Typ38Byte ∨ typ = Typ3ByteLength ∨ typ = Typ3_4Byte) :
    ∃ key : List Nat, (p.EncodeVarint ((num <<< 3) ||| typ)).buf = p.buf ++ key ∧
      scanFieldKey (key ++ trailing) =
        .ok { typ := typ, number := num, n := (key.length : Int), err := none } := by
  have ht8 : typ < 8 := by
    rcases htyp with h | h | h | h <;> subst h <;> decide
  obtain ⟨h1, h2⟩ := key_fields num typ ht8
  have hkey : (num <<< 3) ||| typ < 2 ^ 64 := by
    have e : (num <<< 3) ||| typ = 2 ^ 3 * num + typ := by
      rw [Nat.shiftLeft_eq, mul_comm, Nat.mul_add_lt_is_or (by simpa using ht8)]
    omega
  refine ⟨varintOf ((num <<< 3) ||| typ), by rw [EncodeVarint_eq], ?_⟩
  rw [scanFieldKey_varintOf _ hkey, h1, h2, uint32, Nat.mod_eq_of_lt hnum]

theorem C6_scanFieldKey_roundtrip_witness :
    (1000 : Nat) < 2 ^ 32 ∧
    (Typ3ByteLength = Typ3Varint ∨ Typ3ByteLength = Typ38Byte ∨
      Typ3ByteLength = Typ3ByteLength ∨ Typ3ByteLength = Typ3_4Byte) ∧
    ∃ key : List Nat,
      (Buffer.EncodeVarint ⟨[], 0⟩ ((1000 <<< 3) ||| Typ3ByteLength)).buf
        = (Buffer.mk [] 0).buf ++ key ∧
      scanFieldKey (key ++ [1, 0x41]) =
        .ok { typ := Typ3ByteLength, number := 1000, n := (key.length : Int), err := none } :=
  ⟨by decide, Or.inr (Or.inr (Or.inl rfl)),
    C6_scanFieldKey_roundtrip ⟨[], 0⟩ 1000 Typ3ByteLength [1, 0x41] (by decide)
      (Or.inr (Or.inr (Or.inl rfl)))⟩

/-- C7: for every 64-bit `x`, `Buffer.EncodeFixed64` appends exactly 8 bytes and
`Buffer.EncodeFixed32` exactly 4 bytes, little-endian: byte `i` is `(x >> (8*i)) & 0xFF`;
the 8 bytes recompose to `x`, the 4 bytes to `x mod 2 ^ 32`, and the upper 32 bits of the
argument do not affect what `EncodeFixed32` writes. -/
theorem C7_EncodeFixed (p : Buffer) (x : Nat) (hx : x < 2 ^ 64) :
    (∃ bs : List Nat, (p.EncodeFixed64 x).buf = p.buf ++ bs ∧ bs.length = 8 ∧
      (∀ i, i < 8 → bs.getD i 0 = (x >>> (8 * i)) &&& 0xFF) ∧
      ∑ i in Finset.range 8, bs.getD i 0 * 256 ^ i = x) ∧
    (∃ bs : List Nat, (p.EncodeFixed32 x).buf = p.buf ++ bs ∧ bs.length = 4 ∧
      (∀ i, i < 4 → bs.getD i 0 = (x >>> (8 * i)) &&& 0xFF) ∧
      ∑ i in Finset.range 4, bs.getD i 0 * 256 ^ i = x % 2 ^ 32) ∧
    p.EncodeFixed32 x = p.EncodeFixed32 (x % 2 ^ 32) := by
  have hb : ∀ y : Nat, y &&& 0xFF = y % 256 := fun y => Nat.and_pow_two_sub_one_eq_mod y 8
  refine ⟨⟨_, rfl, rfl, ?_, ?_⟩, ⟨_, rfl, rfl, ?_, ?_⟩, ?_⟩
  · intro i hi
    rw [hb]
    interval_cases i <;> simp [uint8]
  · simp only [Finset.sum_range_succ, Finset.sum_range_zero, uint8, Nat.shiftRight_eq_div_pow]
    norm_num
    omega
  · intro i hi
    rw [hb]
    interval_cases i <;> simp [uint8]
  · simp only [Finset.sum_range_succ, Finset.sum_range_zero, uint8, Nat.shiftRight_eq_div_pow]
    norm_num
    omega
  · simp only [Buffer.EncodeFixed32, uint8, Nat.shiftRight_eq_div_pow]
    norm_num
    refine ⟨?_, ?_, ?_⟩ <;> omega

theorem C7_EncodeFixed_witness :
    (0x1122334455667788 : Nat) < 2 ^ 64 ∧
    (∃ bs : List Nat, (Buffer.EncodeFixed64 ⟨[9], 0⟩ 0x1122334455667788).buf
        = (Buffer.mk [9] 0).buf ++ bs ∧ bs.length = 8 ∧
      (∀ i, i < 8 → bs.getD i 0 = (0x1122334455667788 >>> (8 * i)) &&& 0xFF) ∧
      ∑ i in Finset.range 8, bs.getD i 0 * 256 ^ i = 0x1122334455667788) :=
  ⟨by decide, (C7_EncodeFixed ⟨[9], 0⟩ 0x1122334455667788 (by decide)).1⟩

theorem EncodeRawBytes_eq (p : Buffer) (b : List Nat) (hb : b.length < 2 ^ 63) :
    p.EncodeRawBytes b = ⟨p.buf ++ (varintOf b.length ++ b), p.index⟩ := by
  unfold Buffer.EncodeRawBytes
  rw [Nat.mod_eq_of_lt (by omega), EncodeVarint_eq]
  simp

/-- A length-delimited payload followed by anything is scanned to its end. -/
theorem scanByteLength_payload (b rest : List Nat) (hb : b.length < 2 ^ 63) :
    scanByteLength (varintOf b.length ++ (b ++ rest)) =
      .ok { n := ((varintOf b.length).length : Int) + (b.length : Int), err := none } := by
  have hpos := length_varintOf_pos b.length
  unfold scanByteLength
  simp only [Uvarint_varintOf b.length (by omega) (b ++ rest)]
  rw [if_neg (by decide), int64_of_lt _ hb, if_neg (by simp; omega),
    sliceTo_of_le _ _ (by simp)]
  simp only [bind, Except.bind]
  rw [slide_of_le _ _ _ (by simp)]
  simp only [List.drop_left]
  rw [sliceTo_of_le _ _ (by simp), slide_of_le _ _ _ (by simp)]
  simp

/-- C9: for every byte sequence `b` (of a length a Go slice can have), `scanByteLength`
applied to the bytes `EncodeRawBytes` writes for `b` into an empty buffer returns no error
and a consumed-byte count equal to the length of the encoded bytes, which is the length of
the length prefix plus `len(b)`. -/
theorem C9_scanByteLength_roundtrip (b : List Nat) (hb : b.length < 2 ^ 63) :
    scanByteLength (Buffer.EncodeRawBytes ⟨[], 0⟩ b).buf =
      .ok { n := ((Buffer.EncodeRawBytes ⟨[], 0⟩ b).buf.length : Int), err := none } ∧
    (Buffer.EncodeRawBytes ⟨[], 0⟩ b).buf.length
      = (Buffer.EncodeVarint ⟨[], 0⟩ b.length).buf.length + b.length := by
  have h := scanByteLength_payload b [] hb
  rw [EncodeRawBytes_eq _ b hb]
  simp only [List.nil_append, List.append_nil, List.length_append] at h ⊢
  exact ⟨by rw [h]; push_cast; rfl, rfl⟩

theorem C9_scanByteLength_roundtrip_witness :
    ([0x74, 0x65, 0x6E] : List Nat).length < 2 ^ 63 ∧
    scanByteLength (Buffer.EncodeRawBytes ⟨[], 0⟩ [0x74, 0x65, 0x6E]).buf =
      .ok { n := ((Buffer.EncodeRawBytes ⟨[], 0⟩ [0x74, 0x65, 0x6E]).buf.length : Int),
            err := none } :=
  ⟨by decide, (C9_scanByteLength_roundtrip [0x74, 0x65, 0x6E] (by decide)).1⟩

/-! ## Scanning a written message -/

theorem scanVarint_varintOf (v : Nat) (hv : v < 2 ^ 64) (rest : List Nat) :
    scanVarint (varintOf v ++ rest) =
      .ok { n := ((varintOf v).length : Int), err := none } := by
  have hpos := length_varintOf_pos v
  have hne : ¬ (varintOf v ++ rest).length = 0 := by rw [List.length_append]; omega
  have hn : ¬ (((varintOf v).length : Int) ≤ 0) := by omega
  unfold scanVarint
  simp only [binary.Varint, Uvarint_varintOf v hv rest, if_neg hne, if_neg hn, ne_eq,
    not_true_eq_false, if_false, Bool.not_true, Bool.false_and, Bool.false_eq_true]
  rw [sliceTo_of_le _ _ (by simp)]
  rfl

theorem scan8Byte_of_le (bz : List Nat) (h : 8 ≤ bz.length) :
    scan8Byte bz = .ok { n := 8, err := none } := by
  unfold scan8Byte
  have hs : sliceTo bz 8 = .ok (bz.take 8) := sliceTo_of_le bz 8 h
  rw [if_neg (by omega), hs]
  rfl

theorem scan4Byte_of_le (bz : List Nat) (h : 4 ≤ bz.length) :
    scan4Byte bz = .ok { n := 4, err := none } := by
  unfold scan4Byte
  have hs : sliceTo bz 4 = .ok (bz.take 4) := sliceTo_of_le bz 4 h
  rw [if_neg (by omega), hs]
  rfl

/-- One iteration of the loop of `scanStruct` over a written key and a payload that
`scanAny` accepts in full. -/
theorem scanStructLoop_step (fuel key : Nat) (hkey : key < 2 ^ 64)
    (payload rest : List Nat) (n : Int)
    (hany : scanAny (key &&& 0x07) (payload ++ rest) =
      .ok { n := (payload.length : Int), err := none }) :
    scanStructLoop true (fuel + 1) (varintOf key ++ (payload ++ rest)) n none =
      scanStructLoop true fuel rest
        (n + ((varintOf key).length : Int) + (payload.length : Int)) none := by
  have hpos := length_varintOf_pos key
  have hne : ¬ (varintOf key ++ (payload ++ rest)).length = 0 := by
    rw [List.length_append]; omega
  rw [scanStructLoop]
  simp only [Bool.true_and, decide_eq_true_eq, hne, if_false,
    scanFieldKey_varintOf key hkey (payload ++ rest)]
  rw [slide_of_le _ _ _ (by simp)]
  simp only [List.drop_left, ne_eq, not_true_eq_false, if_false, hany]
  rw [slide_of_le _ _ _ (by simp)]
  simp only [List.drop_left, ne_eq, not_true_eq_false, if_false]

theorem key_lt (num typ : Nat) (hnum : num < 2 ^ 32) (htyp : typ < 8) :
    (num <<< 3) ||| typ < 2 ^ 64 := by
  have e : (num <<< 3) ||| typ = 2 ^ 3 * num + typ := by
    rw [Nat.shiftLeft_eq, mul_comm, Nat.mul_add_lt_is_or (by simpa using htyp)]
  omega

/-- A written field entry is appended to the buffer, and one iteration of the loop of
`scanStruct` consumes exactly its bytes. -/
theorem write_scanned (f : FieldEntry) (hf : f.wellFormed) (p : Buffer) :
    ∃ bs : List Nat, f.write p = ⟨p.buf ++ bs, p.index⟩ ∧
      ∀ (fuel : Nat) (rest : List Nat) (n : Int),
        scanStructLoop true (fuel + 1) (bs ++ rest) n none =
          scanStructLoop true fuel rest (n + (bs.length : Int)) none := by
  cases f with
  | varint num v =>
    obtain ⟨hnum, hv⟩ := hf
    have hk := key_lt num Typ3Varint hnum (by decide)
    have ht := (key_fields num Typ3Varint (by decide)).1
    refine ⟨varintOf ((num <<< 3) ||| Typ3Varint) ++ varintOf v, ?_, ?_⟩
    · simp [FieldEntry.write, EncodeVarint_eq]
    · intro fuel rest n
      have hany : scanAny (((num <<< 3) ||| Typ3Varint) &&& 0x07) (varintOf v ++ rest) =
          .ok { n := ((varintOf v).length : Int), err := none } := by
        rw [ht, scanAny, if_pos rfl, scanVarint_varintOf v hv rest]
      rw [List.append_assoc, scanStructLoop_step fuel _ hk _ rest n hany]
      simp [add_assoc]
  | fixed64 num v =>
    obtain ⟨hnum, _⟩ := hf
    have hk := key_lt num Typ38Byte hnum (by decide)
    have ht := (key_fields num Typ38Byte (by decide)).1
    refine ⟨varintOf ((num <<< 3) ||| Typ38Byte) ++
      [uint8 v, uint8 (v >>> 8), uint8 (v >>> 16), uint8 (v >>> 24),
       uint8 (v >>> 32), uint8 (v >>> 40), uint8 (v >>> 48), uint8 (v >>> 56)], ?_, ?_⟩
    · simp [FieldEntry.write, EncodeVarint_eq, Buffer.EncodeFixed64]
    · intro fuel rest n
      rw [List.append_assoc, scanStructLoop_step fuel _ hk _ rest n
        (by rw [ht, scanAny, if_neg (by decide), if_pos rfl,
              scan8Byte_of_le _ (by simp)]; rfl)]
      simp [add_assoc]
  | byteLength num b =>
    obtain ⟨hnum, hb⟩ := hf
    have hk := key_lt num Typ3ByteLength hnum (by decide)
    have ht := (key_fields num Typ3ByteLength (by decide)).1
    refine ⟨varintOf ((num <<< 3) ||| Typ3ByteLength) ++ (varintOf b.length ++ b), ?_, ?_⟩
    · simp [FieldEntry.write, EncodeVarint_eq, EncodeRawBytes_eq _ b hb]
    · intro fuel rest n
      rw [List.append_assoc, scanStructLoop_step fuel _ hk _ rest n
        (by rw [ht, scanAny, if_neg (by decide), if_neg (by decide), if_pos rfl,
              List.append_assoc, scanByteLength_payload b rest hb]; simp)]
      simp [add_assoc]
  | fixed32 num v =>
    obtain ⟨hnum, _⟩ := hf
    have hk := key_lt num Typ3_4Byte hnum (by decide)
    have ht := (key_fields num Typ3_4Byte (by decide)).1
    refine ⟨varintOf ((num <<< 3) ||| Typ3_4Byte) ++
      [uint8 v, uint8 (v >>> 8), uint8 (v >>> 16), uint8 (v >>> 24)], ?_, ?_⟩
    · simp [FieldEntry.write, EncodeVarint_eq, Buffer.EncodeFixed32]
    · intro fuel rest n
      rw [List.append_assoc, scanStructLoop_step fuel _ hk _ rest n
        (by rw [ht, scanAny, if_neg (by decide), if_neg (by decide), if_neg (by decide),
              if_pos rfl, scan4Byte_of_le _ (by simp)]; rfl)]
      simp [add_assoc]

/-- A written message is appended to the buffer, and the loop of `scanStruct`, given more
iterations than there are entries, walks it to its end. -/
theorem writeMessage_scanned (fs : List FieldEntry) :
    (∀ f ∈ fs, f.wellFormed) → ∀ p : Buffer,
    ∃ bs : List Nat, writeMessage p fs = ⟨p.buf ++ bs, p.index⟩ ∧
      ∀ (fuel : Nat) (n : Int), fs.length < fuel →
        scanStructLoop true fuel bs n none =
          some (.ok { n := n + (bs.length : Int), err := none }) := by
  induction fs with
  | nil =>
    intro _ p
    refine ⟨[], by simp [writeMessage], ?_⟩
    intro fuel n hfuel
    obtain ⟨k, rfl⟩ : ∃ k, fuel = k + 1 := ⟨fuel - 1, by simp at hfuel; omega⟩
    simp [scanStructLoop]
  | cons f fs ih =>
    intro hwf p
    obtain ⟨b1, hw1, hs1⟩ := write_scanned f (hwf f (List.mem_cons_self _ _)) p
    obtain ⟨b2, hw2, hs2⟩ := ih (fun g hg => hwf g (List.mem_cons_of_mem _ hg)) (f.write p)
    refine ⟨b1 ++ b2, ?_, ?_⟩
    · rw [writeMessage, List.foldl_cons, ← writeMessage, hw2, hw1]
      simp
    · intro fuel n hfuel
      obtain ⟨k, rfl⟩ : ∃ k, fuel = k + 1 := ⟨fuel - 1, by simp at hfuel; omega⟩
      rw [hs1 k b2 n, hs2 k _ (by simpa using hfuel)]
      simp [add_assoc]

theorem writeMessage_example :
    (writeMessage ⟨[], 0⟩
      [.byteLength 1 [0x08, 0x64, 0x10, 0x65], .byteLength 1 [0x08, 0x66, 0x10, 0x67]]).buf
      = [0x0A, 0x04, 0x08, 0x64, 0x10, 0x65, 0x0A, 0x04, 0x08, 0x66, 0x10, 0x67] := by
  have h1 : varintOf ((1 <<< 3) ||| 2) = [10] := varintOf_lt 10 (by decide)
  have h2 : varintOf 4 = [4] := varintOf_lt 4 (by decide)
  simp only [writeMessage, List.foldl_cons, List.foldl_nil, FieldEntry.write,
    Buffer.EncodeRawBytes, EncodeVarint_eq, Typ3ByteLength, List.length_cons,
    List.length_nil]
  norm_num [h1, h2]

/-- C10: for every finite list of well-formed field entries, each written as its field
key followed by the payload of its wire type, root-mode `scanStruct` on the written bytes,
given more loop iterations than there are entries, returns no error and `n` equal to the
input length; the 12 bytes `0A04086410650A0408661067` are such a message and give
`n = 12` and no error. -/
theorem C10_scanStruct_walks_message (fs : List FieldEntry)
    (hwf : ∀ f ∈ fs, f.wellFormed) (fuel : Nat) (hfuel : fs.length < fuel) :
    scanStruct fuel (writeMessage ⟨[], 0⟩ fs).buf true =
      some (.ok { n := ((writeMessage ⟨[], 0⟩ fs).buf.length : Int), err := none }) ∧
    (2 < fuel →
      scanStruct fuel
        [0x0A, 0x04, 0x08, 0x64, 0x10, 0x65, 0x0A, 0x04, 0x08, 0x66, 0x10, 0x67] true =
        some (.ok { n := 12, err := none })) := by
  have key : ∀ (gs : List FieldEntry), (∀ f ∈ gs, f.wellFormed) → gs.length < fuel →
      scanStruct fuel (writeMessage ⟨[], 0⟩ gs).buf true =
        some (.ok { n := ((writeMessage ⟨[], 0⟩ gs).buf.length : Int), err := none }) := by
    intro gs hgs hlen
    obtain ⟨bs, hw, hs⟩ := writeMessage_scanned gs hgs ⟨[], 0⟩
    rw [hw, scanStruct]
    simp only [List.nil_append]
    rw [hs fuel 0 hlen]
    simp
  refine ⟨key fs hwf hfuel, ?_⟩
  intro h2
  have := key [.byteLength 1 [0x08, 0x64, 0x10, 0x65], .byteLength 1 [0x08, 0x66, 0x10, 0x67]]
    (by decide) (by simpa using h2)
  rw [writeMessage_example] at this
  simpa using this

theorem C10_scanStruct_walks_message_witness :
    (∀ f ∈ [FieldEntry.varint 1 300, .fixed64 2 (2 ^ 64 - 1), .byteLength 3 [0x74, 0x65],
        .fixed32 4 7, .byteLength 5 []], f.wellFormed) ∧
    ([FieldEntry.varint 1 300, .fixed64 2 (2 ^ 64 - 1), .byteLength 3 [0x74, 0x65],
        .fixed32 4 7, .byteLength 5 []].length < 6) ∧
    scanStruct 6 (writeMessage ⟨[], 0⟩
        [.varint 1 300, .fixed64 2 (2 ^ 64 - 1), .byteLength 3 [0x74, 0x65],
         .fixed32 4 7, .byteLength 5 []]).buf true =
      some (.ok { n := ((writeMessage ⟨[], 0⟩
        [.varint 1 300, .fixed64 2 (2 ^ 64 - 1), .byteLength 3 [0x74, 0x65],
         .fixed32 4 7, .byteLength 5 []]).buf.length : Int), err := none }) :=
  ⟨by decide, by decide,
    (C10_scanStruct_walks_message
      [.varint 1 300, .fixed64 2 (2 ^ 64 - 1), .byteLength 3 [0x74, 0x65],
       .fixed32 4 7, .byteLength 5 []] (by decide) 6 (by decide)).1⟩

/-! ## The zigzag writers -/

theorem varintOf_injective (a b : Nat) (h : varintOf a = varintOf b) : a = b := by
  rw [← groupValue_varintOf a, ← groupValue_varintOf b, h]

theorem EncodeVarint_buf_injective (p : Buffer) (a b : Nat)
    (h : (p.EncodeVarint a).buf = (p.EncodeVarint b).buf) : a = b := by
  rw [EncodeVarint_eq a, EncodeVarint_eq b] at h
  exact varintOf_injective a b (List.append_cancel_left h)

theorem uint64_of_nonneg (n : Int) (h0 : 0 ≤ n) (h1 : n < 2 ^ 64) :
    uint64 n = n.toNat := by
  unfold uint64
  rw [Int.emod_eq_of_lt h0 h1]

theorem uint64_of_neg (n : Int) (h0 : n < 0) (h1 : -2 ^ 64 ≤ n) :
    uint64 n = (n + 2 ^ 64).toNat := by
  unfold uint64
  have : n % 2 ^ 64 = n + 2 ^ 64 := by omega
  rw [this]

/-- C11: the zigzag transform of `Buffer.EncodeZigzag64` is a bijection on 64-bit values:
two 64-bit arguments with the same transform, or for which the writer leaves the same
bytes, are equal; every 64-bit value is the transform of a 64-bit argument; and for every
signed `n` with `-64 ≤ n ≤ 63` the writer appends exactly one byte. -/
theorem C11_EncodeZigzag64_bijective (p : Buffer) (x y : Nat)
    (hx : x < 2 ^ 64) (hy : y < 2 ^ 64) :
    ((((x <<< 1) % 2 ^ 64) ^^^ uint64 (int64 x >>> (63 : Nat))
        = ((y <<< 1) % 2 ^ 64) ^^^ uint64 (int64 y >>> (63 : Nat))) → x = y) ∧
    ((p.EncodeZigzag64 x).buf = (p.EncodeZigzag64 y).buf → x = y) ∧
    (∀ z : Nat, z < 2 ^ 64 → ∃ a : Nat, a < 2 ^ 64 ∧
      ((a <<< 1) % 2 ^ 64) ^^^ uint64 (int64 a >>> (63 : Nat)) = z ∧
      p.EncodeZigzag64 a = p.EncodeVarint z) ∧
    (∀ n : Int, -64 ≤ n → n ≤ 63 →
      (p.EncodeZigzag64 (uint64 n)).buf.length = p.buf.length + 1) := by
  have hinj : (((x <<< 1) % 2 ^ 64) ^^^ uint64 (int64 x >>> (63 : Nat))
        = ((y <<< 1) % 2 ^ 64) ^^^ uint64 (int64 y >>> (63 : Nat))) → x = y := by
    intro h
    rw [zigzag64_value x hx, zigzag64_value y hy] at h
    split at h <;> split at h <;> omega
  refine ⟨hinj, ?_, ?_, ?_⟩
  · intro h
    exact hinj (EncodeVarint_buf_injective p _ _ h)
  · intro z hz
    by_cases hev : z % 2 = 0
    · have ha : z / 2 < 2 ^ 64 := by omega
      have hv : (((z / 2) <<< 1) % 2 ^ 64) ^^^ uint64 (int64 (z / 2) >>> (63 : Nat)) = z := by
        rw [zigzag64_value _ ha, if_pos (by omega)]
        omega
      exact ⟨z / 2, ha, hv, by rw [Buffer.EncodeZigzag64, hv]⟩
    · have ha : 2 ^ 64 - (z + 1) / 2 < 2 ^ 64 := by omega
      have hv : (((2 ^ 64 - (z + 1) / 2) <<< 1) % 2 ^ 64) ^^^
          uint64 (int64 (2 ^ 64 - (z + 1) / 2) >>> (63 : Nat)) = z := by
        rw [zigzag64_value _ ha, if_neg (by omega)]
        omega
      exact ⟨2 ^ 64 - (z + 1) / 2, ha, hv, by rw [Buffer.EncodeZigzag64, hv]⟩
  · intro n hlo hhi
    by_cases hn : 0 ≤ n
    · have hu : uint64 n = n.toNat := uint64_of_nonneg n hn (by omega)
      have hlt : n.toNat < 64 := by omega
      rw [hu, Buffer.EncodeZigzag64, zigzag64_value _ (by omega), if_pos (by omega),
        EncodeVarint_eq, varintOf_lt _ (by omega)]
      simp
    · have hu : uint64 n = (n + 2 ^ 64).toNat := uint64_of_neg n (by omega) (by omega)
      have hge : 2 ^ 64 - 64 ≤ (n + 2 ^ 64).toNat := by omega
      have hlt : (n + 2 ^ 64).toNat < 2 ^ 64 := by omega
      rw [hu, Buffer.EncodeZigzag64, zigzag64_value _ hlt, if_neg (by omega),
        EncodeVarint_eq, varintOf_lt _ (by omega)]
      simp

theorem C11_EncodeZigzag64_bijective_witness :
    (5 : Nat) < 2 ^ 64 ∧ (2 ^ 64 - 3 : Nat) < 2 ^ 64 ∧
    ((Buffer.EncodeZigzag64 ⟨[], 0⟩ 5).buf = (Buffer.EncodeZigzag64 ⟨[], 0⟩ (2 ^ 64 - 3)).buf
      → (5 : Nat) = 2 ^ 64 - 3) ∧
    (∀ n : Int, -64 ≤ n → n ≤ 63 →
      (Buffer.EncodeZigzag64 ⟨[], 0⟩ (uint64 n)).buf.length = (Buffer.mk [] 0).buf.length + 1) :=
  ⟨by decide, by decide,
    (C11_EncodeZigzag64_bijective ⟨[], 0⟩ 5 (2 ^ 64 - 3) (by decide) (by decide)).2.1,
    (C11_EncodeZigzag64_bijective ⟨[], 0⟩ 5 (2 ^ 64 - 3) (by decide) (by decide)).2.2.2⟩

theorem sign_word32_of_lt (x : Nat) (h : x % 2 ^ 32 < 2 ^ 31) :
    uint32OfInt (int32 x >>> (31 : Nat)) = 0 := by
  unfold int32
  rw [if_pos h, Int.shiftRight_eq_div_pow]
  have : ((x % 2 ^ 32 : Nat) : Int) / ((2 ^ 31 : Nat) : Int) = 0 :=
    Int.ediv_eq_zero_of_lt (by omega) (by exact_mod_cast h)
  rw [this]
  rfl

theorem sign_word32_of_ge (x : Nat) (h : 2 ^ 31 ≤ x % 2 ^ 32) :
    uint32OfInt (int32 x >>> (31 : Nat)) = 2 ^ 32 - 1 := by
  unfold int32
  rw [if_neg (by omega), Int.shiftRight_eq_div_pow]
  have hlt : x % 2 ^ 32 < 2 ^ 32 := Nat.mod_lt _ (by decide)
  have : (((x % 2 ^ 32 : Nat) : Int) - 2 ^ 32) / ((2 ^ 31 : Nat) : Int) = -1 := by
    have h1 : ((2 ^ 31 : Nat) : Int) = 2 ^ 31 := by norm_num
    rw [h1]
    omega
  rw [this]
  rfl

/-- The value `Buffer.EncodeZigzag32` hands to the varint writer. -/
theorem zigzag32_value (x : Nat) :
    ((uint32 x <<< 1) % 2 ^ 32) ^^^ uint32OfInt (int32 x >>> (31 : Nat))
      = if x % 2 ^ 32 < 2 ^ 31 then 2 * (x % 2 ^ 32) else 2 ^ 33 - 1 - 2 * (x % 2 ^ 32) := by
  have hlt : x % 2 ^ 32 < 2 ^ 32 := Nat.mod_lt _ (by decide)
  rw [uint32, Nat.shiftLeft_eq]
  by_cases h : x % 2 ^ 32 < 2 ^ 31
  · rw [sign_word32_of_lt x h, if_pos h, Nat.xor_zero, Nat.mod_eq_of_lt (by omega)]
    omega
  · have hge : 2 ^ 31 ≤ x % 2 ^ 32 := by omega
    have hm : x % 2 ^ 32 * 2 ^ 1 % 2 ^ 32 = 2 * (x % 2 ^ 32) - 2 ^ 32 := by omega
    rw [sign_word32_of_ge x hge, if_neg h, hm, xor_allOnes 32 _ (by omega)]
    omega

/-- C12: for every argument `x` (a `uint64`), `Buffer.EncodeZigzag32` writes what
`Buffer.EncodeVarint` writes for the 32-bit zigzag `z` of the low 32 bits of `x`, that is
`((x mod 2^32) << 1 mod 2^32) XOR (all-ones 32-bit word if bit 31 of x is set, else 0)`;
`z` is below `2 ^ 32`, at most 5 bytes are appended, and the upper 32 bits of `x` do not
affect the result. -/
theorem C12_EncodeZigzag32 (p : Buffer) (x : Nat) :
    ∃ z : Nat, z < 2 ^ 32 ∧ p.EncodeZigzag32 x = p.EncodeVarint z ∧
      z = (((x % 2 ^ 32) * 2) % 2 ^ 32) ^^^ (if 2 ^ 31 ≤ x % 2 ^ 32 then 2 ^ 32 - 1 else 0) ∧
      (p.EncodeZigzag32 x).buf.length ≤ p.buf.length + 5 ∧
      p.EncodeZigzag32 x = p.EncodeZigzag32 (x % 2 ^ 32) := by
  have hlt : x % 2 ^ 32 < 2 ^ 32 := Nat.mod_lt _ (by decide)
  have hz : ((uint32 x <<< 1) % 2 ^ 32) ^^^ uint32OfInt (int32 x >>> (31 : Nat)) < 2 ^ 32 := by
    rw [zigzag32_value x]
    split <;> omega
  refine ⟨_, hz, rfl, ?_, ?_, ?_⟩
  · rw [uint32, Nat.shiftLeft_eq]
    by_cases h : x % 2 ^ 32 < 2 ^ 31
    · rw [sign_word32_of_lt x h, if_neg (by omega)]
    · rw [sign_word32_of_ge x (by omega), if_pos (by omega)]
  · rw [Buffer.EncodeZigzag32, EncodeVarint_eq, List.length_append]
    have : (varintOf (((uint32 x <<< 1) % 2 ^ 32) ^^^
        uint32OfInt (int32 x >>> (31 : Nat)))).length ≤ 4 + 1 :=
      (length_varintOf_le_iff 4 _).mpr (lt_of_lt_of_le hz (by norm_num))
    simpa using this
  · have e : x % 2 ^ 32 % 2 ^ 32 = x % 2 ^ 32 := Nat.mod_mod _ _
    rw [Buffer.EncodeZigzag32, Buffer.EncodeZigzag32, zigzag32_value x,
      zigzag32_value (x % 2 ^ 32), e]

/-! ## Construction, reset and empty byte collections -/

theorem EncodeVarint_zero (p : Buffer) : (p.EncodeVarint 0).buf = p.buf ++ [0x00] := by
  rw [EncodeVarint_eq, varintOf_lt 0 (by decide)]

/-- C14: a nil byte collection and an allocated zero-length one are encoded identically:
`Buffer.EncodeRawBytes` on either, and `Buffer.EncodeStringBytes` on the empty string,
append exactly the single byte `0x00`. -/
theorem C14_nil_empty_collapse (p : Buffer) :
    p.EncodeRawBytes ByteSlice.nil.elems = p.EncodeRawBytes (ByteSlice.alloc []).elems ∧
    (p.EncodeRawBytes ByteSlice.nil.elems).buf = p.buf ++ [0x00] ∧
    (p.EncodeRawBytes (ByteSlice.alloc []).elems).buf = p.buf ++ [0x00] ∧
    (p.EncodeStringBytes []).buf = p.buf ++ [0x00] := by
  have h : (p.EncodeRawBytes []).buf = p.buf ++ [0x00] := by
    rw [EncodeRawBytes_eq p [] (by decide)]
    simp [varintOf_lt 0 (by decide)]
  exact ⟨rfl, h, h, h⟩

/-! ## The scanner on arbitrary input -/

theorem scanFieldKey_truncated :
    scanFieldKey [0x80] = .ok { typ := 0, number := 0, n := 0, err := none } := by decide

theorem scanVarint_truncated : scanVarint [0x80] = .ok { n := 0, err := none } := by decide

theorem slide_zero (bz : List Nat) (n : Int) : slide bz n 0 = .ok (bz, n) := by
  unfold slide
  rw [if_neg (by omega), if_neg (by omega)]
  simp

theorem scanStructLoop_truncated (fuel : Nat) :
    ∀ n : Int, scanStructLoop true fuel [0x80] n none = none := by
  induction fuel with
  | zero => intro n; rfl
  | succ k ih =>
    intro n
    have hany : scanAny 0 [0x80] = .ok { n := 0, err := none } := by decide
    rw [scanStructLoop]
    simp only [scanFieldKey_truncated, slide_zero, hany]
    simpa using ih n

theorem UvarintLoop_snd_le (l : List Nat) : ∀ x s i : Nat,
    (binary.UvarintLoop x s i l).2 ≤ (i : Int) + l.length := by
  induction l with
  | nil => intro x s i; simp [binary.UvarintLoop]
  | cons b rest ih =>
    intro x s i
    rw [binary.UvarintLoop]
    split
    · simp only [List.length_cons]; omega
    · split
      · split
        · simp only [List.length_cons]; omega
        · simp only [List.length_cons]; omega
      · have := ih (x ||| ((b &&& 0x7f) <<< s) % 2 ^ 64) (s + 7) (i + 1)
        simp only [List.length_cons]
        push_cast at this ⊢
        omega

theorem Uvarint_snd_le (bz : List Nat) : (binary.Uvarint bz).2 ≤ (bz.length : Int) := by
  have := UvarintLoop_snd_le bz 0 0 0
  simpa [binary.Uvarint] using this

/-- What `scanVarint` returns, by the byte count `binary.Uvarint` reports: the length of
the varint and no error when it is positive, the error "Invalid (u)varint" when it is
negative (overflow), and, when it is zero (buffer too small), `n = 0` with an error only
if the input is empty. -/
theorem scanVarint_by_count (bz : List Nat) :
    (0 < (binary.Uvarint bz).2 →
      scanVarint bz = .ok { n := (binary.Uvarint bz).2, err := none }) ∧
    ((binary.Uvarint bz).2 < 0 →
      scanVarint bz = .ok { n := 0, err := some "Invalid (u)varint" }) ∧
    ((binary.Uvarint bz).2 = 0 → bz ≠ [] → scanVarint bz = .ok { n := 0, err := none }) ∧
    (bz = [] → scanVarint bz = .ok { n := 0, err := some "EOF while reading (U)Varint" }) := by
  have hle := Uvarint_snd_le bz
  refine ⟨?_, ?_, ?_, ?_⟩
  · intro hpos
    have hne : ¬ bz.length = 0 := by
      intro h0
      rw [h0] at hle
      omega
    obtain ⟨k, hk⟩ : ∃ k : Nat, (binary.Uvarint bz).2 = (k : Int) :=
      ⟨(binary.Uvarint bz).2.toNat, by omega⟩
    have hkl : k ≤ bz.length := by omega
    unfold scanVarint
    simp only [binary.Varint, if_neg hne, if_neg (not_le.mpr hpos), ne_eq, not_true_eq_false,
      if_false, Bool.not_true, Bool.false_and, Bool.false_eq_true]
    rw [hk, sliceTo_of_le _ _ hkl]
    rfl
  · intro hneg
    have hne : (0 : Int) ≠ (binary.Uvarint bz).2 := by omega
    unfold scanVarint
    simp only [binary.Varint, if_pos (le_of_lt hneg), if_pos hne, Bool.not_false,
      Bool.and_self, if_true]
  · intro h0 hnil
    have hne : ¬ bz.length = 0 := by
      intro h
      exact hnil (List.length_eq_zero.mp h)
    have hs : sliceTo bz 0 = .ok (bz.take 0) := sliceTo_of_le bz 0 (by omega)
    unfold scanVarint
    simp only [binary.Varint, h0, le_refl, if_true, ne_eq, not_true_eq_false, if_false,
      Bool.not_false, Bool.not_true, Bool.and_false, Bool.false_eq_true, if_neg hne, hs]
    rfl
  · intro h
    subst h
    decide

/-- C15 (code evaluated at the failing input `03`): `scanFieldKey` extracts the wire type
3 with no error, and root-mode `scanStruct` reaches the default branch of `scanAny`, the
panic "should not happen". -/
theorem C15_scanAny_default_reached (fuel : Nat) :
    scanFieldKey [0x03] = .ok { typ := 3, number := 0, n := 1, err := none } ∧
    scanStruct (fuel + 1) [0x03] true = some (.error .shouldNotHappen) := by
  refine ⟨by decide, ?_⟩
  have hk : scanFieldKey [0x03] = .ok { typ := 3, number := 0, n := 1, err := none } := by
    decide
  have hs : slide [0x03] 0 1 = .ok ([], 1) := by decide
  have hany : scanAny 3 [] = .error .shouldNotHappen := by decide
  rw [scanStruct, scanStructLoop]
  simp [hk, hs, hany]

/-- C16 (code evaluated at the failing input `80`): on the one-byte input `0x80`, an
iteration of the loop of root-mode `scanStruct` neither returns nor consumes a byte
(`scanFieldKey` and `scanVarint` both give `n = 0` with no error), so no number of
iterations makes `scanStruct` return. -/
theorem C16_scanStruct_no_progress (fuel : Nat) :
    scanFieldKey [0x80] = .ok { typ := 0, number := 0, n := 0, err := none } ∧
    scanAny 0 [0x80] = .ok { n := 0, err := none } ∧
    scanStruct fuel [0x80] true = none :=
  ⟨scanFieldKey_truncated, by decide, scanStructLoop_truncated fuel 0⟩

/-- C17 (code evaluated at the failing input `80`): on a truncated varint, whose only
byte still has the continuation bit set, both readers report "buffer too small" and
`scanVarint` returns `n = 0` with a nil error. -/
theorem C17_scanVarint_truncated_no_error :
    binary.Uvarint [0x80] = (0, 0) ∧ binary.Varint [0x80] = (0, 0) ∧
    scanVarint [0x80] = .ok { n := 0, err := none } :=
  ⟨by decide, by decide, scanVarint_truncated⟩

/-- C18 (code evaluated at the failing input `FFFFFFFFFFFFFFFFFF7F`): the uvarint reader
reports overflow with the byte count `-10`, and `scanByteLength` does not return the error
"error decoding uvarint": it panics in the slice expression `bz[:_n]`. -/
theorem C18_scanByteLength_overflow_panics :
    binary.Uvarint [0xFF, 0xFF, 0xFF, 0xFF, 0xFF, 0xFF, 0xFF, 0xFF, 0xFF, 0x7F] = (0, -10) ∧
    scanByteLength [0xFF, 0xFF, 0xFF, 0xFF, 0xFF, 0xFF, 0xFF, 0xFF, 0xFF, 0x7F]
      = .error .outOfRange := by
  constructor <;> decide

/-- C19 (code evaluated at failing inputs): with the two-byte length prefix `80 01`
(declared length 128) followed by only 127 bytes, and with the two-byte prefix `81 00`
(declared length 1) followed by nothing, `scanByteLength` returns no error: it panics
out of range. -/
theorem C19_scanByteLength_short_payload_panics :
    binary.Uvarint ([0x80, 0x01] ++ List.replicate 127 0) = (128, 2) ∧
    scanByteLength ([0x80, 0x01] ++ List.replicate 127 0) = .error .outOfRange ∧
    binary.Uvarint [0x81, 0x00] = (1, 2) ∧
    scanByteLength [0x81, 0x00] = .error .outOfRange := by
  refine ⟨by decide, ?_, by decide, by decide⟩
  have hu : binary.Uvarint ([0x80, 0x01] ++ List.replicate 127 0) = (128, 2) := by decide
  unfold scanByteLength
  simp only [hu]
  rw [if_neg (by decide), int64_of_lt 128 (by decide), if_neg (by simp)]
  have h1 : sliceTo ([0x80, 0x01] ++ List.replicate 127 0) 2 = .ok [0x80, 0x01] := by
    simp [sliceTo]
  have h2 : slide ([0x80, 0x01] ++ List.replicate 127 0) 0 2
      = .ok (List.replicate 127 0, 2) := by
    simp [slide]
  have h3 : sliceTo (List.replicate 127 0) ((128 : Nat) : Int) = .error .outOfRange := by
    simp [sliceTo]
  simp only [bind, Except.bind, h1, h2, h3]

/-- C20: `scan8Byte` returns an error with `n = 0` exactly when its input has fewer than
8 bytes, and otherwise `n = 8` with no error; `scan4Byte` returns an error with `n = 0`
exactly when its input has fewer than 4 bytes, and otherwise `n = 4` with no error. -/
theorem C20_scan_fixed_width (bz : List Nat) :
    (scan8Byte bz =
      if bz.length < 8 then
        .ok { n := 0, err := some "while reading 8byte field, EOF was encountered" }
      else .ok { n := 8, err := none }) ∧
    ((∃ r, scan8Byte bz = .ok r ∧ r.err ≠ none ∧ r.n = 0) ↔ bz.length < 8) ∧
    (scan4Byte bz =
      if bz.length < 4 then
        .ok { n := 0, err := some "while reading 8byte field, EOF was encountered" }
      else .ok { n := 4, err := none }) ∧
    ((∃ r, scan4Byte bz = .ok r ∧ r.err ≠ none ∧ r.n = 0) ↔ bz.length < 4) := by
  have h8 : scan8Byte bz =
      if bz.length < 8 then
        .ok { n := 0, err := some "while reading 8byte field, EOF was encountered" }
      else .ok { n := 8, err := none } := by
    by_cases h : bz.length < 8
    · rw [if_pos h, scan8Byte, if_pos h]
    · rw [if_neg h, scan8Byte_of_le bz (by omega)]
  have h4 : scan4Byte bz =
      if bz.length < 4 then
        .ok { n := 0, err := some "while reading 8byte field, EOF was encountered" }
      else .ok { n := 4, err := none } := by
    by_cases h : bz.length < 4
    · rw [if_pos h, scan4Byte, if_pos h]
    · rw [if_neg h, scan4Byte_of_le bz (by omega)]
  refine ⟨h8, ?_, h4, ?_⟩
  · rw [h8]
    by_cases h : bz.length < 8
    · simp [h]
    · simp [h]
  · rw [h4]
    by_cases h : bz.length < 4
    · simp [h]
    · simp [h]

/-! ## Frame of the writers, agreement of the zigzag writers, prefix-freedom -/

theorem EncodeVarint_frame (p : Buffer) (x : Nat) :
    (p.EncodeVarint x).buf = p.buf ++ ((NewBuffer []).EncodeVarint x).buf ∧
    (p.EncodeVarint x).index = p.index := by
  have h : ((NewBuffer []).EncodeVarint x).buf = varintOf x := rfl
  rw [h, EncodeVarint_eq]
  exact ⟨rfl, rfl⟩

/-- C22: for every signed `n` with `-2^31 ≤ n < 2^31`, passed sign-extended to 64 bits,
`Buffer.EncodeZigzag32` and `Buffer.EncodeZigzag64` leave the same buffer. -/
theorem C22_EncodeZigzag32_eq_EncodeZigzag64 (p : Buffer) (n : Int)
    (hlo : -2 ^ 31 ≤ n) (hhi : n < 2 ^ 31) :
    p.EncodeZigzag32 (uint64 n) = p.EncodeZigzag64 (uint64 n) := by
  rw [Buffer.EncodeZigzag32, Buffer.EncodeZigzag64, zigzag32_value]
  by_cases hn : 0 ≤ n
  · have hu : uint64 n = n.toNat := uint64_of_nonneg n hn (by omega)
    have hlt : n.toNat < 2 ^ 31 := by omega
    have hm : n.toNat % 2 ^ 32 = n.toNat := Nat.mod_eq_of_lt (by omega)
    rw [hu, zigzag64_value _ (by omega), hm, if_pos hlt, if_pos (by omega)]
  · have hu : uint64 n = (n + 2 ^ 64).toNat := uint64_of_neg n (by omega) (by omega)
    have hge : 2 ^ 64 - 2 ^ 31 ≤ (n + 2 ^ 64).toNat := by omega
    have hlt : (n + 2 ^ 64).toNat < 2 ^ 64 := by omega
    have hm : 2 ^ 31 ≤ (n + 2 ^ 64).toNat % 2 ^ 32 := by omega
    have hm' : (n + 2 ^ 64).toNat % 2 ^ 32 < 2 ^ 32 := Nat.mod_lt _ (by decide)
    rw [hu, zigzag64_value _ hlt, if_neg (by omega), if_neg (by omega)]
    congr 1
    omega

theorem C22_EncodeZigzag32_eq_EncodeZigzag64_witness :
    (-2 ^ 31 : Int) ≤ -5 ∧ (-5 : Int) < 2 ^ 31 ∧
    Buffer.EncodeZigzag32 ⟨[], 0⟩ (uint64 (-5)) = Buffer.EncodeZigzag64 ⟨[], 0⟩ (uint64 (-5)) :=
  ⟨by decide, by decide,
    C22_EncodeZigzag32_eq_EncodeZigzag64 ⟨[], 0⟩ (-5) (by decide) (by decide)⟩

theorem varintOf_append_inj (x y : Nat) (hx : x < 2 ^ 64) (hy : y < 2 ^ 64)
    (s t : List Nat) (h : varintOf x ++ s = varintOf y ++ t) : x = y ∧ s = t := by
  have h1 := Uvarint_varintOf x hx s
  have h2 := Uvarint_varintOf y hy t
  rw [h, h2] at h1
  have hxy : x = y := (congrArg Prod.fst h1).symm
  subst hxy
  exact ⟨rfl, List.append_cancel_left h⟩

theorem writeVarints_cons (p : Buffer) (x : Nat) (xs : List Nat) :
    writeVarints p (x :: xs) = writeVarints (p.EncodeVarint x) xs := rfl

theorem writeVarints_buf (xs : List Nat) : ∀ (p : Buffer) (s : List Nat),
    (writeVarints p xs).buf ++ s = p.buf ++ ((writeVarints (NewBuffer []) xs).buf ++ s) := by
  induction xs with
  | nil => intro p s; simp [writeVarints, NewBuffer]
  | cons x xs ih =>
    intro p s
    rw [writeVarints_cons, writeVarints_cons, ih (p.EncodeVarint x) s,
      ih ((NewBuffer []).EncodeVarint x) s, EncodeVarint_eq x p,
      EncodeVarint_eq x (NewBuffer [])]
    simp [NewBuffer]

theorem writeVarints_cons_buf (x : Nat) (xs : List Nat) :
    (writeVarints (NewBuffer []) (x :: xs)).buf
      = varintOf x ++ (writeVarints (NewBuffer []) xs).buf := by
  have h := writeVarints_buf xs ((NewBuffer []).EncodeVarint x) []
  rw [List.append_nil, List.append_nil] at h
  rw [writeVarints_cons, h]
  rfl

theorem writeVarints_inj (xs : List Nat) : ∀ ys : List Nat,
    (∀ a ∈ xs, a < 2 ^ 64) → (∀ a ∈ ys, a < 2 ^ 64) →
    (writeVarints (NewBuffer []) xs).buf = (writeVarints (NewBuffer []) ys).buf →
    xs = ys := by
  induction xs with
  | nil =>
    intro ys _ _ h
    cases ys with
    | nil => rfl
    | cons y ys =>
      rw [writeVarints_cons_buf] at h
      have : varintOf y = [] := (List.append_eq_nil.mp h.symm).1
      exact absurd this (varintOf_ne_nil y)
  | cons x xs ih =>
    intro ys hxs hys h
    cases ys with
    | nil =>
      rw [writeVarints_cons_buf] at h
      have : varintOf x = [] := (List.append_eq_nil.mp h).1
      exact absurd this (varintOf_ne_nil x)
    | cons y ys =>
      rw [writeVarints_cons_buf, writeVarints_cons_buf] at h
      obtain ⟨hxy, hrest⟩ := varintOf_append_inj x y (hxs x (List.mem_cons_self _ _))
        (hys y (List.mem_cons_self _ _)) _ _ h
      rw [hxy, ih ys (fun a ha => hxs a (List.mem_cons_of_mem _ ha))
        (fun a ha => hys a (List.mem_cons_of_mem _ ha)) hrest]

/-- C23: the varint code written by `Buffer.EncodeVarint` is prefix-free: for 64-bit
`x ≠ y` the bytes written for `x` are not a prefix of the bytes written for `y`; and two
sequences of 64-bit values written one after the other into an empty buffer give the same
bytes only if the sequences are equal, so a concatenation of varints splits in one way. -/
theorem C23_varint_prefix_free (x y : Nat) (hx : x < 2 ^ 64) (hy : y < 2 ^ 64)
    (hne : x ≠ y) :
    ¬ (((NewBuffer []).EncodeVarint x).Bytes <+: ((NewBuffer []).EncodeVarint y).Bytes) ∧
    (∀ xs ys : List Nat, (∀ a ∈ xs, a < 2 ^ 64) → (∀ a ∈ ys, a < 2 ^ 64) →
      (writeVarints (NewBuffer []) xs).Bytes = (writeVarints (NewBuffer []) ys).Bytes →
      xs = ys) := by
  refine ⟨?_, fun xs ys hxs hys h => writeVarints_inj xs ys hxs hys h⟩
  rintro ⟨t, ht⟩
  have ht' : varintOf x ++ t = varintOf y ++ [] := by
    rw [List.append_nil]
    exact ht
  exact hne (varintOf_append_inj x y hx hy t [] ht').1

theorem C23_varint_prefix_free_witness :
    (1 : Nat) < 2 ^ 64 ∧ (129 : Nat) < 2 ^ 64 ∧ (1 : Nat) ≠ 129 ∧
    ¬ (((NewBuffer []).EncodeVarint 1).Bytes <+: ((NewBuffer []).EncodeVarint 129).Bytes) :=
  ⟨by decide, by decide, by decide,
    (C23_varint_prefix_free 1 129 (by decide) (by decide) (by decide)).1⟩

/-! ## The plain varint writer against the zigzag writer -/

/-- C3 (amended): `Buffer.EncodeVarint` applies no zigzag transform: for every 64-bit `x`
and every buffer it appends the plain unsigned varint of `x` itself (bytes that
`binary.Uvarint` reads back as `x`, and whose 7-bit groups sum to `x`), and for every
`x ≠ 0` these differ from what the zigzag writer `Buffer.EncodeZigzag64` appends, which is
the plain varint of the zigzag value of `x`.  Writing 120 appends `[0x78]`; the bytes
`[0xF0, 0x01]` are the plain varint of 240 and what `Buffer.EncodeZigzag64` appends
for 120. -/
theorem C3_EncodeVarint_plain_EncodeZigzag64_zigzag (p : Buffer) (x : Nat)
    (hx : x < 2 ^ 64) :
    (∃ bs : List Nat, (p.EncodeVarint x).buf = p.buf ++ bs ∧
      binary.Uvarint bs = (x, (bs.length : Int)) ∧ groupValue bs = x) ∧
    (x ≠ 0 → (p.EncodeVarint x).buf ≠ (p.EncodeZigzag64 x).buf) ∧
    (p.EncodeZigzag64 x).buf = (p.EncodeVarint
      (if x < 2 ^ 63 then 2 * x else 2 ^ 65 - 1 - 2 * x)).buf ∧
    (p.EncodeVarint 120).buf = p.buf ++ [0x78] ∧
    (p.EncodeVarint 240).buf = p.buf ++ [0xF0, 0x01] ∧
    (p.EncodeZigzag64 120).buf = p.buf ++ [0xF0, 0x01] := by
  have h240 : varintOf 240 = [0xF0, 0x01] := by
    rw [varintOf_ge 240 (by decide), varintOf_lt (240 / 128) (by decide)]
  refine ⟨⟨varintOf x, by rw [EncodeVarint_eq], ?_, groupValue_varintOf x⟩, ?_, ?_, ?_, ?_, ?_⟩
  · have := Uvarint_varintOf x hx []
    rwa [List.append_nil] at this
  · intro h0 heq
    rw [Buffer.EncodeZigzag64] at heq
    have h := EncodeVarint_buf_injective p _ _ heq
    rw [zigzag64_value x hx] at h
    split at h <;> omega
  · rw [Buffer.EncodeZigzag64, zigzag64_value x hx]
  · rw [EncodeVarint_eq, varintOf_lt 120 (by decide)]
  · rw [EncodeVarint_eq, h240]
  · rw [Buffer.EncodeZigzag64, zigzag64_value 120 (by decide), if_pos (by decide),
      EncodeVarint_eq, h240]

theorem C3_EncodeVarint_plain_EncodeZigzag64_zigzag_witness :
    (300 : Nat) < 2 ^ 64 ∧
    (∃ bs : List Nat, (Buffer.EncodeVarint ⟨[7], 0⟩ 300).buf = (Buffer.mk [7] 0).buf ++ bs ∧
      binary.Uvarint bs = (300, (bs.length : Int)) ∧ groupValue bs = 300) ∧
    ((300 : Nat) ≠ 0 →
      (Buffer.EncodeVarint ⟨[7], 0⟩ 300).buf ≠ (Buffer.EncodeZigzag64 ⟨[7], 0⟩ 300).buf) :=
  ⟨by decide,
    (C3_EncodeVarint_plain_EncodeZigzag64_zigzag ⟨[7], 0⟩ 300 (by decide)).1,
    (C3_EncodeVarint_plain_EncodeZigzag64_zigzag ⟨[7], 0⟩ 300 (by decide)).2.1⟩

/-! ## Writers on a buffer that shares memory with its arguments -/

theorem mem_EncodeVarint_lt (p : Mem.Buffer) (x : Nat) (h : x < 128) :
    p.EncodeVarint x = p.append [x] := by
  rw [Mem.Buffer.EncodeVarint]
  have h' : ¬ (1 <<< 7 ≤ x) := by
    have : (1 <<< 7 : Nat) = 128 := by decide
    omega
  simp only [h', if_false, uint8]
  rw [Nat.mod_eq_of_lt (by omega)]

theorem mem_EncodeVarint_ge (p : Mem.Buffer) (x : Nat) (h : 128 ≤ x) :
    p.EncodeVarint x = Mem.Buffer.EncodeVarint (p.append [x % 128 + 128]) (x / 128) := by
  rw [Mem.Buffer.EncodeVarint]
  have h' : (1 <<< 7 ≤ x) := by
    have : (1 <<< 7 : Nat) = 128 := by decide
    omega
  simp only [h', if_true, low7_ge, Nat.shiftRight_eq_div_pow]

/-- The trace of `e := []byte{1,2,3}; p := NewBuffer(e); p.Reset(); p.EncodeRawBytes(e)`:
the length byte overwrites `e[0]` before `e` is copied. -/
theorem mem_aliased_trace :
    (((Mem.NewBuffer [1, 2, 3] ⟨0, 3, 3⟩).Reset).EncodeRawBytes ⟨0, 3, 3⟩).Bytes
      = [3, 3, 2, 3] := by
  simp only [Mem.Buffer.EncodeRawBytes]
  rw [mem_EncodeVarint_lt _ _ (by decide)]
  decide

theorem writeAt_getElem?_lt (mem bs : List Nat) (pos i : Nat)
    (hpos : pos ≤ mem.length) (hi : i < pos) : (writeAt mem pos bs)[i]? = mem[i]? := by
  have h1 : i < (mem.take pos).length := by rw [List.length_take]; omega
  rw [writeAt, List.append_assoc, List.getElem?_append_left h1, List.getElem?_take_of_lt hi]

theorem writeAt_getElem?_ge (mem bs : List Nat) (pos i : Nat)
    (hpos : pos ≤ mem.length) (hi : pos + bs.length ≤ i) :
    (writeAt mem pos bs)[i]? = mem[i]? := by
  have h1 : (mem.take pos ++ bs).length = pos + bs.length := by
    rw [List.length_append, List.length_take]; omega
  rw [writeAt, List.getElem?_append_right (by omega), h1, List.getElem?_drop]
  congr 1
  omega

theorem read_getElem? (mem : List Nat) (a : Slice) (i : Nat) :
    (a.read mem)[i]? = if i < a.len then mem[a.off + i]? else none := by
  rw [Slice.read, List.getElem?_take, List.getElem?_drop]

/-- A write into cells that a slice does not show leaves what the slice shows. -/
theorem read_writeAt (mem bs : List Nat) (pos : Nat) (a : Slice)
    (hpos : pos ≤ mem.length)
    (h : a.len = 0 ∨ a.off + a.len ≤ pos ∨ pos + bs.length ≤ a.off) :
    a.read (writeAt mem pos bs) = a.read mem := by
  apply List.ext_getElem?
  intro i
  rw [read_getElem?, read_getElem?]
  by_cases hi : i < a.len
  · rw [if_pos hi, if_pos hi]
    rcases h with h | h | h
    · omega
    · exact writeAt_getElem?_lt mem bs pos _ hpos (by omega)
    · exact writeAt_getElem?_ge mem bs pos _ hpos (by omega)
  · rw [if_neg hi, if_neg hi]

/-- What the buffer shows after an in-place write at its end. -/
theorem read_writeAt_end (mem bs : List Nat) (off len : Nat)
    (h : off + len + bs.length ≤ mem.length) :
    ((writeAt mem (off + len) bs).drop off).take (len + bs.length)
      = (mem.drop off).take len ++ bs := by
  have h1 : (mem.take (off + len)).length = off + len := by
    rw [List.length_take]; omega
  have h2 : ((mem.take (off + len)).drop off).length = len := by
    rw [List.length_drop, h1]; omega
  have h3 : (mem.take (off + len)).drop off = (mem.drop off).take len := by
    rw [List.drop_take]
    congr 1
    omega
  rw [writeAt, List.append_assoc, List.drop_append_of_le_length (by omega), h3,
    ← List.append_assoc]
  have h4 : ((mem.drop off).take len ++ bs).length = len + bs.length := by
    rw [List.length_append, ← h3, h2]
  rw [← h4, List.take_left]

theorem mem_append_Bytes (p : Mem.Buffer) (bs : List Nat) (hwf : p.wf) :
    (p.append bs).Bytes = p.Bytes ++ bs := by
  obtain ⟨mem, buf, idx⟩ := p
  cases buf with
  | shared s =>
    simp only [Mem.Buffer.wf] at hwf
    simp only [Mem.Buffer.append]
    split
    · simp only [Mem.Buffer.Bytes, Slice.read]
      exact read_writeAt_end mem bs s.off s.len (by omega)
    · rfl
  | own c => rfl

theorem mem_append_index (p : Mem.Buffer) (bs : List Nat) :
    (p.append bs).index = p.index := by
  obtain ⟨mem, buf, idx⟩ := p
  cases buf with
  | shared s =>
    simp only [Mem.Buffer.append]
    split <;> rfl
  | own c => rfl

theorem mem_append_wf (p : Mem.Buffer) (bs : List Nat) (hwf : p.wf) :
    (p.append bs).wf := by
  obtain ⟨mem, buf, idx⟩ := p
  cases buf with
  | shared s =>
    simp only [Mem.Buffer.wf] at hwf
    simp only [Mem.Buffer.append]
    split
    · simp only [Mem.Buffer.wf, writeAt, List.length_append, List.length_take,
        List.length_drop]
      omega
    · trivial
  | own c => trivial

theorem mem_append_clearOf (p : Mem.Buffer) (bs : List Nat) (a : Slice)
    (hc : p.clearOf a) : (p.append bs).clearOf a := by
  obtain ⟨mem, buf, idx⟩ := p
  cases buf with
  | shared s =>
    simp only [Mem.Buffer.clearOf] at hc
    simp only [Mem.Buffer.append]
    split
    · simp only [Mem.Buffer.clearOf]
      omega
    · trivial
  | own c => trivial

theorem mem_append_read (p : Mem.Buffer) (bs : List Nat) (a : Slice)
    (hwf : p.wf) (hc : p.clearOf a) : a.read (p.append bs).mem = a.read p.mem := by
  obtain ⟨mem, buf, idx⟩ := p
  cases buf with
  | shared s =>
    simp only [Mem.Buffer.wf] at hwf
    simp only [Mem.Buffer.clearOf] at hc
    simp only [Mem.Buffer.append]
    split
    · exact read_writeAt mem bs (s.off + s.len) a (by omega) (by omega)
    · rfl
  | own c => rfl

/-- The varint writer on shared memory: it appends `varintOf x`, keeps the index and the
consistency of the slice header, and changes no cell outside the spare capacity. -/
theorem mem_EncodeVarint_spec (x : Nat) : ∀ p : Mem.Buffer, p.wf →
    (p.EncodeVarint x).wf ∧ (p.EncodeVarint x).Bytes = p.Bytes ++ varintOf x ∧
    (p.EncodeVarint x).index = p.index ∧
    ∀ a : Slice, p.clearOf a →
      (p.EncodeVarint x).clearOf a ∧ a.read (p.EncodeVarint x).mem = a.read p.mem := by
  induction x using Nat.strong_induction_on with
  | _ x ih =>
    intro p hwf
    by_cases h : x < 128
    · rw [mem_EncodeVarint_lt p x h, varintOf_lt x h]
      exact ⟨mem_append_wf p _ hwf, mem_append_Bytes p _ hwf, mem_append_index p _,
        fun a hc => ⟨mem_append_clearOf p _ a hc, mem_append_read p _ a hwf hc⟩⟩
    · have hge : 128 ≤ x := by omega
      have hlt : x / 128 < x := Nat.div_lt_self (by omega) (by decide)
      obtain ⟨h1, h2, h3, h4⟩ := ih (x / 128) hlt (p.append [x % 128 + 128])
        (mem_append_wf p _ hwf)
      rw [mem_EncodeVarint_ge p x hge, varintOf_ge x hge]
      refine ⟨h1, ?_, ?_, ?_⟩
      · rw [h2, mem_append_Bytes p _ hwf]
        simp
      · rw [h3, mem_append_index]
      · intro a hc
        obtain ⟨h5, h6⟩ := h4 a (mem_append_clearOf p _ a hc)
        exact ⟨h5, by rw [h6, mem_append_read p _ a hwf hc]⟩

theorem mem_contents_append (p : Mem.Buffer) (bs : List Nat) (hwf : p.wf) :
    (p.append bs).contents = ⟨p.contents.buf ++ bs, p.contents.index⟩ := by
  simp only [Mem.Buffer.contents, mem_append_Bytes p bs hwf, mem_append_index]

theorem mem_contents_EncodeVarint (p : Mem.Buffer) (x : Nat) (hwf : p.wf) :
    (p.EncodeVarint x).contents = p.contents.EncodeVarint x := by
  obtain ⟨_, h2, h3, _⟩ := mem_EncodeVarint_spec x p hwf
  rw [EncodeVarint_eq]
  simp only [Mem.Buffer.contents, h2, h3]

theorem mem_contents_EncodeStringBytes (p : Mem.Buffer) (s : List Nat) (hwf : p.wf) :
    (p.EncodeStringBytes s).contents = p.contents.EncodeStringBytes s := by
  obtain ⟨h1, _, _, _⟩ := mem_EncodeVarint_spec (s.length % 2 ^ 64) p hwf
  simp only [Mem.Buffer.EncodeStringBytes, Buffer.EncodeStringBytes]
  rw [mem_contents_append _ _ h1, mem_contents_EncodeVarint p _ hwf]

theorem mem_contents_WriteBytes (p : Mem.Buffer) (b : Slice) (hwf : p.wf) :
    (p.WriteBytes b).contents = p.contents.WriteBytes (b.read p.mem) := by
  simp only [Mem.Buffer.WriteBytes, Buffer.WriteBytes]
  rw [mem_contents_append _ _ hwf]

/-- With an argument that shows no cell of the spare capacity, `EncodeRawBytes` on shared
memory does what the writer on values does with the elements of the argument. -/
theorem mem_contents_EncodeRawBytes (p : Mem.Buffer) (b : Slice) (hwf : p.wf)
    (hc : p.clearOf b) (hb : b.inBounds p.mem) :
    (p.EncodeRawBytes b).contents = p.contents.EncodeRawBytes (b.read p.mem) := by
  obtain ⟨h1, _, _, h4⟩ := mem_EncodeVarint_spec (b.len % 2 ^ 64) p hwf
  have hlen : (b.read p.mem).length = b.len := by
    unfold Slice.inBounds at hb
    simp only [Slice.read, List.length_take, List.length_drop]
    omega
  simp only [Mem.Buffer.EncodeRawBytes, Buffer.EncodeRawBytes]
  rw [mem_contents_append _ _ h1, mem_contents_EncodeVarint p _ hwf, (h4 b hc).2, hlen]

theorem mem_Reset_wf (p : Mem.Buffer) (hwf : p.wf) : p.Reset.wf := by
  obtain ⟨mem, buf, idx⟩ := p
  cases buf with
  | shared s =>
    simp only [Mem.Buffer.wf] at hwf
    simp only [Mem.Buffer.Reset, Mem.Buffer.wf]
    omega
  | own c => trivial

theorem mem_Reset_contents (p : Mem.Buffer) : p.Reset.contents = NewBuffer [] := by
  obtain ⟨mem, buf, idx⟩ := p
  cases buf with
  | shared s => simp [Mem.Buffer.Reset, Mem.Buffer.contents, Mem.Buffer.Bytes, Slice.read,
      NewBuffer]
  | own c => rfl

theorem mem_contents_Reset (p : Mem.Buffer) : p.Reset.contents = p.contents.Reset := by
  rw [mem_Reset_contents]
  simp [Buffer.Reset, NewBuffer]

theorem mem_contents_SetBuf (p : Mem.Buffer) (s : Slice) :
    (p.SetBuf s).contents = p.contents.SetBuf (s.read p.mem) := rfl

theorem mem_Reset_mem (p : Mem.Buffer) : p.Reset.mem = p.mem := by
  obtain ⟨mem, buf, idx⟩ := p
  cases buf <;> rfl

theorem mem_EncodeVarint_Bytes (p : Mem.Buffer) (x : Nat) (hwf : p.wf) :
    (p.EncodeVarint x).Bytes = p.Bytes ++ varintOf x ∧ (p.EncodeVarint x).index = p.index :=
  ⟨(mem_EncodeVarint_spec x p hwf).2.1, (mem_EncodeVarint_spec x p hwf).2.2.1⟩

theorem mem_EncodeStringBytes_Bytes (p : Mem.Buffer) (s : List Nat) (hwf : p.wf) :
    (p.EncodeStringBytes s).Bytes = p.Bytes ++ (varintOf (s.length % 2 ^ 64) ++ s) ∧
    (p.EncodeStringBytes s).index = p.index := by
  obtain ⟨h1, h2, h3, _⟩ := mem_EncodeVarint_spec (s.length % 2 ^ 64) p hwf
  simp only [Mem.Buffer.EncodeStringBytes]
  rw [mem_append_Bytes _ _ h1, mem_append_index, h2, h3, List.append_assoc]
  exact ⟨rfl, rfl⟩

/-- With an argument that shows no cell of the spare capacity, `EncodeRawBytes` on shared
memory appends the varint of the length and the elements the argument had at the call. -/
theorem mem_EncodeRawBytes_Bytes (p : Mem.Buffer) (b : Slice) (hwf : p.wf)
    (hc : p.clearOf b) :
    (p.EncodeRawBytes b).Bytes = p.Bytes ++ (varintOf (b.len % 2 ^ 64) ++ b.read p.mem) ∧
    (p.EncodeRawBytes b).index = p.index := by
  obtain ⟨h1, h2, h3, h4⟩ := mem_EncodeVarint_spec (b.len % 2 ^ 64) p hwf
  simp only [Mem.Buffer.EncodeRawBytes]
  rw [mem_append_Bytes _ _ h1, mem_append_index, h2, h3, (h4 b hc).2, List.append_assoc]
  exact ⟨rfl, rfl⟩

theorem mem_empty_wf (mem : List Nat) : (Mem.NewBuffer mem ⟨0, 0, 0⟩).wf := by
  simp [Mem.NewBuffer, Mem.Buffer.wf]

theorem mem_empty_Bytes (mem : List Nat) : (Mem.NewBuffer mem ⟨0, 0, 0⟩).Bytes = [] := by
  simp [Mem.NewBuffer, Mem.Buffer.Bytes, Slice.read]

theorem mem_empty_clearOf (mem : List Nat) (b : Slice) :
    (Mem.NewBuffer mem ⟨0, 0, 0⟩).clearOf b := by
  simp [Mem.NewBuffer, Mem.Buffer.clearOf]

theorem mem_aliased_length_byte :
    (((Mem.NewBuffer [1, 2, 3] ⟨0, 3, 3⟩).Reset).EncodeVarint 3).Bytes = [3] := by
  rw [mem_EncodeVarint_lt _ _ (by decide)]
  decide

theorem mem_empty_trace :
    ((Mem.NewBuffer [1, 2, 3] ⟨0, 0, 0⟩).EncodeRawBytes ⟨0, 3, 3⟩).Bytes = [3, 1, 2, 3] := by
  simp only [Mem.Buffer.EncodeRawBytes]
  rw [mem_EncodeVarint_lt _ _ (by decide)]
  decide

theorem values_trace : ((NewBuffer []).EncodeRawBytes [1, 2, 3]).Bytes = [3, 1, 2, 3] := by
  rw [Buffer.Bytes, EncodeRawBytes_eq _ _ (by decide)]
  simp [NewBuffer, varintOf_lt 3 (by decide)]

/-! ## Claims about byte-slice arguments that may share memory with the buffer -/

/-- C8 (as stated, refuted): with `e := []byte{1,2,3}`, `p := NewBuffer(e)`, `p.Reset()`,
the call `p.EncodeRawBytes(e)` does not append the varint of `len(e)` followed by the
bytes of `e` unchanged: the length byte overwrites `e[0]` first, and the buffer ends as
`[3, 3, 2, 3]`. -/
theorem C8_EncodeRawBytes_shared_memory_refuted :
    ¬ ∃ pre : List Nat,
      (((Mem.NewBuffer [1, 2, 3] ⟨0, 3, 3⟩).Reset).EncodeVarint 3).Bytes
        = ((Mem.NewBuffer [1, 2, 3] ⟨0, 3, 3⟩).Reset).Bytes ++ pre ∧
      (((Mem.NewBuffer [1, 2, 3] ⟨0, 3, 3⟩).Reset).EncodeRawBytes ⟨0, 3, 3⟩).Bytes
        = ((Mem.NewBuffer [1, 2, 3] ⟨0, 3, 3⟩).Reset).Bytes ++ pre
          ++ Slice.read ((Mem.NewBuffer [1, 2, 3] ⟨0, 3, 3⟩).Reset).mem ⟨0, 3, 3⟩ := by
  rintro ⟨pre, h1, h2⟩
  rw [mem_aliased_length_byte] at h1
  rw [mem_aliased_trace] at h2
  have hb : ((Mem.NewBuffer [1, 2, 3] ⟨0, 3, 3⟩).Reset).Bytes = [] := by decide
  have hr : Slice.read ((Mem.NewBuffer [1, 2, 3] ⟨0, 3, 3⟩).Reset).mem ⟨0, 3, 3⟩
      = [1, 2, 3] := by decide
  rw [hb, List.nil_append] at h1
  rw [hb, hr, ← h1] at h2
  revert h2
  decide

/-- C8 (amended): for every byte slice `b` (of a length a Go slice can have) that shows no
cell of the spare capacity of the buffer, `EncodeRawBytes` appends the bytes
`EncodeVarint` appends for `len(b)` followed by the bytes of `b` unchanged and in order,
and keeps the index; `EncodeStringBytes` on a string with the bytes of `b` appends the
same bytes; and the call agrees with the writer on values, `Buffer.EncodeRawBytes`. -/
theorem C8_EncodeRawBytes (p : Mem.Buffer) (b : Slice) (hwf : p.wf)
    (hb : b.inBounds p.mem) (hlen : b.len < 2 ^ 63) (hc : p.clearOf b) :
    (∃ pre : List Nat, (p.EncodeVarint b.len).Bytes = p.Bytes ++ pre ∧
      (p.EncodeRawBytes b).Bytes = p.Bytes ++ pre ++ b.read p.mem) ∧
    (b.read p.mem).length = b.len ∧
    (p.EncodeRawBytes b).index = p.index ∧
    (p.EncodeStringBytes (b.read p.mem)).Bytes = (p.EncodeRawBytes b).Bytes ∧
    (p.EncodeVarint b.len).contents = p.contents.EncodeVarint b.len ∧
    (p.EncodeRawBytes b).contents = p.contents.EncodeRawBytes (b.read p.mem) := by
  have hmod : b.len % 2 ^ 64 = b.len := Nat.mod_eq_of_lt (by omega)
  have hl : (b.read p.mem).length = b.len := by
    unfold Slice.inBounds at hb
    simp only [Slice.read, List.length_take, List.length_drop]
    omega
  obtain ⟨h1, h2⟩ := mem_EncodeRawBytes_Bytes p b hwf hc
  rw [hmod] at h1
  refine ⟨⟨varintOf b.len, (mem_EncodeVarint_Bytes p b.len hwf).1, ?_⟩, hl, h2, ?_,
    mem_contents_EncodeVarint p b.len hwf, mem_contents_EncodeRawBytes p b hwf hc hb⟩
  · rw [h1, List.append_assoc]
  · rw [(mem_EncodeStringBytes_Bytes p _ hwf).1, hl, hmod, h1]

theorem C8_EncodeRawBytes_witness :
    (Mem.NewBuffer [1, 2, 3, 0x74, 0x65] ⟨0, 1, 3⟩).wf ∧
    Slice.inBounds (Mem.NewBuffer [1, 2, 3, 0x74, 0x65] ⟨0, 1, 3⟩).mem ⟨3, 2, 2⟩ ∧
    (Slice.mk 3 2 2).len < 2 ^ 63 ∧
    (Mem.NewBuffer [1, 2, 3, 0x74, 0x65] ⟨0, 1, 3⟩).clearOf ⟨3, 2, 2⟩ ∧
    (∃ pre : List Nat,
      ((Mem.NewBuffer [1, 2, 3, 0x74, 0x65] ⟨0, 1, 3⟩).EncodeVarint (Slice.mk 3 2 2).len).Bytes
        = (Mem.NewBuffer [1, 2, 3, 0x74, 0x65] ⟨0, 1, 3⟩).Bytes ++ pre ∧
      ((Mem.NewBuffer [1, 2, 3, 0x74, 0x65] ⟨0, 1, 3⟩).EncodeRawBytes ⟨3, 2, 2⟩).Bytes
        = (Mem.NewBuffer [1, 2, 3, 0x74, 0x65] ⟨0, 1, 3⟩).Bytes ++ pre
          ++ Slice.read (Mem.NewBuffer [1, 2, 3, 0x74, 0x65] ⟨0, 1, 3⟩).mem ⟨3, 2, 2⟩) :=
  ⟨by decide, by decide, by decide, by decide,
    (C8_EncodeRawBytes (Mem.NewBuffer [1, 2, 3, 0x74, 0x65] ⟨0, 1, 3⟩) ⟨3, 2, 2⟩
      (by decide) (by decide) (by decide) (by decide)).1⟩

theorem mem_contents_EncodeFixed64 (p : Mem.Buffer) (x : Nat) (hwf : p.wf) :
    (p.EncodeFixed64 x).contents = p.contents.EncodeFixed64 x := by
  simp only [Mem.Buffer.EncodeFixed64, Buffer.EncodeFixed64]
  rw [mem_contents_append _ _ hwf]

theorem mem_contents_EncodeFixed32 (p : Mem.Buffer) (x : Nat) (hwf : p.wf) :
    (p.EncodeFixed32 x).contents = p.contents.EncodeFixed32 x := by
  simp only [Mem.Buffer.EncodeFixed32, Buffer.EncodeFixed32]
  rw [mem_contents_append _ _ hwf]

theorem mem_contents_EncodeBool (p : Mem.Buffer) (c : Bool) (hwf : p.wf) :
    (p.EncodeBool c).contents = p.contents.EncodeBool c := by
  cases c
  · exact mem_contents_EncodeVarint p 0 hwf
  · exact mem_contents_EncodeVarint p 1 hwf

/-- C13 (as stated, refuted): with `e := []byte{1,2,3}`, `p := NewBuffer(e)`, after
`p.Reset()` the call `p.EncodeRawBytes(e)` does not leave the encoding of the value it was
given (`[3, 1, 2, 3]`, what the call leaves in a new buffer): `Reset` kept the backing
array, and the buffer ends as `[3, 3, 2, 3]`. -/
theorem C13_Reset_keeps_backing_array_refuted :
    ¬ ((((Mem.NewBuffer [1, 2, 3] ⟨0, 3, 3⟩).Reset).EncodeRawBytes ⟨0, 3, 3⟩).Bytes
        = ((NewBuffer []).EncodeRawBytes
            (Slice.read ((Mem.NewBuffer [1, 2, 3] ⟨0, 3, 3⟩).Reset).mem ⟨0, 3, 3⟩)).Bytes) := by
  have hr : Slice.read ((Mem.NewBuffer [1, 2, 3] ⟨0, 3, 3⟩).Reset).mem ⟨0, 3, 3⟩
      = [1, 2, 3] := by decide
  rw [mem_aliased_trace, hr, values_trace]
  decide

/-- C13 (amended): `NewBuffer(e).Bytes()` shows `e` with read index 0; after `SetBuf(s)`
on any buffer `Bytes()` shows `s` and the index is 0; after `Reset()` on any buffer
`Bytes()` is empty and the index is 0, the backing array and its capacity being kept.  A
following `Encode*` call with a scalar or string argument leaves exactly what that call
leaves in a new empty buffer, and so does `EncodeRawBytes` with a slice that shows no
cell of the backing array the buffer kept. -/
theorem C13_NewBuffer_SetBuf_Reset (mem str : List Nat) (e s b : Slice) (p : Mem.Buffer)
    (x : Nat) (c : Bool) (hwf : p.wf) (hb : b.inBounds p.mem) (hc : p.Reset.clearOf b) :
    ((Mem.NewBuffer mem e).Bytes = e.read mem ∧ (Mem.NewBuffer mem e).index = 0) ∧
    ((p.SetBuf s).Bytes = s.read p.mem ∧ (p.SetBuf s).index = 0) ∧
    (p.Reset.Bytes = [] ∧ p.Reset.index = 0) ∧
    ((p.Reset.EncodeVarint x).contents = (NewBuffer []).EncodeVarint x ∧
      (p.Reset.EncodeFixed64 x).contents = (NewBuffer []).EncodeFixed64 x ∧
      (p.Reset.EncodeFixed32 x).contents = (NewBuffer []).EncodeFixed32 x ∧
      (p.Reset.EncodeBool c).contents = (NewBuffer []).EncodeBool c ∧
      (p.Reset.EncodeZigzag64 x).contents = (NewBuffer []).EncodeZigzag64 x ∧
      (p.Reset.EncodeZigzag32 x).contents = (NewBuffer []).EncodeZigzag32 x ∧
      (p.Reset.EncodeStringBytes str).contents = (NewBuffer []).EncodeStringBytes str) ∧
    (p.Reset.EncodeRawBytes b).contents = (NewBuffer []).EncodeRawBytes (b.read p.mem) := by
  have hrw := mem_Reset_wf p hwf
  have hrc := mem_Reset_contents p
  have hb' : b.inBounds p.Reset.mem := by rw [mem_Reset_mem]; exact hb
  have hcont : p.Reset.Bytes = [] ∧ p.Reset.index = 0 := by
    have h1 : p.Reset.contents.buf = [] := by rw [hrc]; rfl
    have h2 : p.Reset.contents.index = 0 := by rw [hrc]; rfl
    exact ⟨h1, h2⟩
  refine ⟨⟨rfl, rfl⟩, ⟨rfl, rfl⟩, hcont, ⟨?_, ?_, ?_, ?_, ?_, ?_, ?_⟩, ?_⟩
  · rw [mem_contents_EncodeVarint _ _ hrw, hrc]
  · rw [mem_contents_EncodeFixed64 _ _ hrw, hrc]
  · rw [mem_contents_EncodeFixed32 _ _ hrw, hrc]
  · rw [mem_contents_EncodeBool _ _ hrw, hrc]
  · rw [Mem.Buffer.EncodeZigzag64, mem_contents_EncodeVarint _ _ hrw, hrc]
    rfl
  · rw [Mem.Buffer.EncodeZigzag32, mem_contents_EncodeVarint _ _ hrw, hrc]
    rfl
  · rw [mem_contents_EncodeStringBytes _ _ hrw, hrc]
  · rw [mem_contents_EncodeRawBytes _ _ hrw hc hb', hrc, mem_Reset_mem]

theorem C13_NewBuffer_SetBuf_Reset_witness :
    (Mem.NewBuffer [1, 2, 3, 0x74, 0x65] ⟨0, 3, 3⟩).wf ∧
    Slice.inBounds (Mem.NewBuffer [1, 2, 3, 0x74, 0x65] ⟨0, 3, 3⟩).mem ⟨3, 2, 2⟩ ∧
    ((Mem.NewBuffer [1, 2, 3, 0x74, 0x65] ⟨0, 3, 3⟩).Reset).clearOf ⟨3, 2, 2⟩ ∧
    (((Mem.NewBuffer [1, 2, 3, 0x74, 0x65] ⟨0, 3, 3⟩).Reset).Bytes = [] ∧
      ((Mem.NewBuffer [1, 2, 3, 0x74, 0x65] ⟨0, 3, 3⟩).Reset).index = 0) ∧
    (((Mem.NewBuffer [1, 2, 3, 0x74, 0x65] ⟨0, 3, 3⟩).Reset).EncodeRawBytes ⟨3, 2, 2⟩).contents
      = (NewBuffer []).EncodeRawBytes
          (Slice.read (Mem.NewBuffer [1, 2, 3, 0x74, 0x65] ⟨0, 3, 3⟩).mem ⟨3, 2, 2⟩) :=
  ⟨by decide, by decide, by decide,
    (C13_NewBuffer_SetBuf_Reset [] [] ⟨0, 0, 0⟩ ⟨0, 0, 0⟩ ⟨3, 2, 2⟩
      (Mem.NewBuffer [1, 2, 3, 0x74, 0x65] ⟨0, 3, 3⟩) 0 false
      (by decide) (by decide) (by decide)).2.2.1,
    (C13_NewBuffer_SetBuf_Reset [] [] ⟨0, 0, 0⟩ ⟨0, 0, 0⟩ ⟨3, 2, 2⟩
      (Mem.NewBuffer [1, 2, 3, 0x74, 0x65] ⟨0, 3, 3⟩) 0 false
      (by decide) (by decide) (by decide)).2.2.2.2⟩

/-- C21 (as stated, refuted): with `e := []byte{1,2,3}`, `p := NewBuffer(e)`, `p.Reset()`,
the content after `p.EncodeRawBytes(e)` is `[3, 3, 2, 3]`, not the prior (empty) content
followed by what the same call produces on an empty buffer, `[3, 1, 2, 3]`. -/
theorem C21_EncodeRawBytes_shared_memory_refuted :
    ¬ ((((Mem.NewBuffer [1, 2, 3] ⟨0, 3, 3⟩).Reset).EncodeRawBytes ⟨0, 3, 3⟩).Bytes
        = ((Mem.NewBuffer [1, 2, 3] ⟨0, 3, 3⟩).Reset).Bytes ++
          ((Mem.NewBuffer ((Mem.NewBuffer [1, 2, 3] ⟨0, 3, 3⟩).Reset).mem
            ⟨0, 0, 0⟩).EncodeRawBytes ⟨0, 3, 3⟩).Bytes) := by
  have hm : ((Mem.NewBuffer [1, 2, 3] ⟨0, 3, 3⟩).Reset).mem = [1, 2, 3] := by decide
  have hb : ((Mem.NewBuffer [1, 2, 3] ⟨0, 3, 3⟩).Reset).Bytes = [] := by decide
  rw [mem_aliased_trace, hm, mem_empty_trace, hb]
  decide

/-- C21 (amended): every writer of `Buffer` is append-only and leaves the read index
unchanged: for `WriteBytes`, `EncodeVarint`, `EncodeFixed64`, `EncodeFixed32`,
`EncodeBool`, `EncodeZigzag64`, `EncodeZigzag32` and `EncodeStringBytes`, and for
`EncodeRawBytes` with a slice that shows no cell of the spare capacity of the buffer, the
content after the call is the prior content followed by exactly the bytes the same call
produces on an empty buffer, and the index is the same as before. -/
theorem C21_writers_append_only (p : Mem.Buffer) (b : Slice) (str : List Nat) (x : Nat)
    (c : Bool) (hwf : p.wf) (hc : p.clearOf b) :
    ((p.WriteBytes b).Bytes = p.Bytes ++ ((Mem.NewBuffer p.mem ⟨0, 0, 0⟩).WriteBytes b).Bytes ∧
      (p.WriteBytes b).index = p.index) ∧
    ((p.EncodeVarint x).Bytes
        = p.Bytes ++ ((Mem.NewBuffer p.mem ⟨0, 0, 0⟩).EncodeVarint x).Bytes ∧
      (p.EncodeVarint x).index = p.index) ∧
    ((p.EncodeFixed64 x).Bytes
        = p.Bytes ++ ((Mem.NewBuffer p.mem ⟨0, 0, 0⟩).EncodeFixed64 x).Bytes ∧
      (p.EncodeFixed64 x).index = p.index) ∧
    ((p.EncodeFixed32 x).Bytes
        = p.Bytes ++ ((Mem.NewBuffer p.mem ⟨0, 0, 0⟩).EncodeFixed32 x).Bytes ∧
      (p.EncodeFixed32 x).index = p.index) ∧
    ((p.EncodeBool c).Bytes = p.Bytes ++ ((Mem.NewBuffer p.mem ⟨0, 0, 0⟩).EncodeBool c).Bytes ∧
      (p.EncodeBool c).index = p.index) ∧
    ((p.EncodeZigzag64 x).Bytes
        = p.Bytes ++ ((Mem.NewBuffer p.mem ⟨0, 0, 0⟩).EncodeZigzag64 x).Bytes ∧
      (p.EncodeZigzag64 x).index = p.index) ∧
    ((p.EncodeZigzag32 x).Bytes
        = p.Bytes ++ ((Mem.NewBuffer p.mem ⟨0, 0, 0⟩).EncodeZigzag32 x).Bytes ∧
      (p.EncodeZigzag32 x).index = p.index) ∧
    ((p.EncodeStringBytes str).Bytes
        = p.Bytes ++ ((Mem.NewBuffer p.mem ⟨0, 0, 0⟩).EncodeStringBytes str).Bytes ∧
      (p.EncodeStringBytes str).index = p.index) ∧
    ((p.EncodeRawBytes b).Bytes
        = p.Bytes ++ ((Mem.NewBuffer p.mem ⟨0, 0, 0⟩).EncodeRawBytes b).Bytes ∧
      (p.EncodeRawBytes b).index = p.index) := by
  have hew := mem_empty_wf p.mem
  have heb := mem_empty_Bytes p.mem
  have hap : ∀ bs : List Nat, (p.append bs).Bytes
      = p.Bytes ++ ((Mem.NewBuffer p.mem ⟨0, 0, 0⟩).append bs).Bytes ∧
      (p.append bs).index = p.index := by
    intro bs
    rw [mem_append_Bytes _ _ hwf, mem_append_Bytes _ _ hew, heb, List.nil_append]
    exact ⟨rfl, mem_append_index p bs⟩
  have hvar : ∀ v : Nat, (p.EncodeVarint v).Bytes
      = p.Bytes ++ ((Mem.NewBuffer p.mem ⟨0, 0, 0⟩).EncodeVarint v).Bytes ∧
      (p.EncodeVarint v).index = p.index := by
    intro v
    rw [(mem_EncodeVarint_Bytes p v hwf).1, (mem_EncodeVarint_Bytes _ v hew).1, heb,
      List.nil_append]
    exact ⟨rfl, (mem_EncodeVarint_Bytes p v hwf).2⟩
  refine ⟨hap _, hvar x, hap _, hap _, ?_, hvar _, hvar _, ?_, ?_⟩
  · cases c
    · exact hvar 0
    · exact hvar 1
  · rw [(mem_EncodeStringBytes_Bytes p str hwf).1, (mem_EncodeStringBytes_Bytes _ str hew).1,
      heb, List.nil_append]
    exact ⟨rfl, (mem_EncodeStringBytes_Bytes p str hwf).2⟩
  · rw [(mem_EncodeRawBytes_Bytes p b hwf hc).1,
      (mem_EncodeRawBytes_Bytes _ b hew (mem_empty_clearOf p.mem b)).1, heb, List.nil_append]
    exact ⟨rfl, (mem_EncodeRawBytes_Bytes p b hwf hc).2⟩

theorem C21_writers_append_only_witness :
    (Mem.NewBuffer [1, 2, 3, 0x74, 0x65] ⟨0, 1, 3⟩).wf ∧
    (Mem.NewBuffer [1, 2, 3, 0x74, 0x65] ⟨0, 1, 3⟩).clearOf ⟨3, 2, 2⟩ ∧
    (((Mem.NewBuffer [1, 2, 3, 0x74, 0x65] ⟨0, 1, 3⟩).EncodeRawBytes ⟨3, 2, 2⟩).Bytes
        = (Mem.NewBuffer [1, 2, 3, 0x74, 0x65] ⟨0, 1, 3⟩).Bytes ++
          ((Mem.NewBuffer (Mem.NewBuffer [1, 2, 3, 0x74, 0x65] ⟨0, 1, 3⟩).mem
            ⟨0, 0, 0⟩).EncodeRawBytes ⟨3, 2, 2⟩).Bytes ∧
      ((Mem.NewBuffer [1, 2, 3, 0x74, 0x65] ⟨0, 1, 3⟩).EncodeRawBytes ⟨3, 2, 2⟩).index
        = (Mem.NewBuffer [1, 2, 3, 0x74, 0x65] ⟨0, 1, 3⟩).index) :=
  ⟨by decide, by decide,
    (C21_writers_append_only (Mem.NewBuffer [1, 2, 3, 0x74, 0x65] ⟨0, 1, 3⟩) ⟨3, 2, 2⟩
      [] 300 true (by decide) (by decide)).2.2.2.2.2.2.2.2⟩

end Amino
